import Mathlib

set_option maxHeartbeats 1000000

/-!
Verification of the statement-terminator normalization core (rule CV06)
and the Oracle slash-terminator checker (rule OR01) of this repository.

The syntax tree is modelled as a mutual inductive (`Seg` / `SegList`) so
that all tree-walking functions are structurally recursive and reduce
definitionally.  A raw segment carries a unique identifier standing for
its source position (distinct parsed segments always have distinct
positions, so Python object identity and equality coincide on them), its
type tag, its raw text and its working line number.
-/

mutual

inductive Seg where
  | raw (id : Nat) (kind : String) (text : String) (line : Nat)
  | node (id : Nat) (kind : String) (children : SegList)

inductive SegList where
  | nil
  | cons (head : Seg) (tail : SegList)

end

deriving instance DecidableEq for Seg
deriving instance DecidableEq for SegList

instance : Inhabited Seg := ⟨Seg.raw 0 "" "" 0⟩

def SegList.toList : SegList → List Seg
  | .nil => []
  | .cons h t => h :: t.toList

def segsOf : List Seg → SegList
  | [] => .nil
  | h :: t => .cons h (segsOf t)

/-- Modelled from the spec: the Tree Access Layer (ordered child access) of
the external parser, consumed but not defined by the two rule files. -/
def childrenOf : Seg → List Seg
  | .raw _ _ _ _ => []
  | .node _ _ cs => cs.toList

def kindOf : Seg → String
  | .raw _ k _ _ => k
  | .node _ k _ => k

def segId : Seg → Nat
  | .raw i _ _ _ => i
  | .node i _ _ => i

/-- Meta segment kinds: zero-width synthetic markers (indent/dedent etc.). -/
def isMetaKind (k : String) : Bool :=
  k == "indent" || k == "dedent" || k == "placeholder"

/-- Whitespace-classified kinds: `is_whitespace` holds for plain whitespace
and newline segments. -/
def isWhitespaceKindB (k : String) : Bool :=
  k == "whitespace" || k == "newline"

/-- Comment kinds: the `comment` tag with its `inline_comment` and
`block_comment` sub-kinds. -/
def isCommentKind (k : String) : Bool :=
  k == "comment" || k == "inline_comment" || k == "block_comment"

/-- Modelled from the spec: `is_meta` classification of the Tree Access
Layer; only raw synthetic-marker segments are meta. -/
def isMeta : Seg → Bool
  | .raw _ k _ _ => isMetaKind k
  | .node _ _ _ => false

/-- Modelled from the spec: `is_whitespace` classification of the Tree
Access Layer. -/
def isWhitespace : Seg → Bool
  | .raw _ k _ _ => isWhitespaceKindB k
  | .node _ _ _ => false

/-- Modelled from the spec: `is_comment` classification of the Tree Access
Layer. -/
def isComment : Seg → Bool
  | .raw _ k _ _ => isCommentKind k
  | .node _ _ _ => false

/-- Modelled from the spec: the kind-equality test of the Tree Access Layer,
including the sub-kind relation of comments (an `inline_comment` or
`block_comment` is also of type `comment`). -/
def isType (s : Seg) (t : String) : Bool :=
  kindOf s == t || (t == "comment" && isCommentKind (kindOf s))

mutual

/-- Modelled from the spec: `is_code` (derived: not whitespace/comment/meta;
a compound node is code iff some child is code). -/
def isCode : Seg → Bool
  | .raw _ k _ _ => !(isWhitespaceKindB k || isCommentKind k || isMetaKind k)
  | .node _ _ cs => isCodeList cs

def isCodeList : SegList → Bool
  | .nil => false
  | .cons c cs => isCode c || isCodeList cs

end

mutual

/-- Modelled from the spec: `raw_segments`, the flattened sequence of raw
leaves of a segment (a raw segment yields itself). -/
def rawSegments : Seg → List Seg
  | .raw i k t l => [Seg.raw i k t l]
  | .node _ _ cs => rawSegmentsList cs

def rawSegmentsList : SegList → List Seg
  | .nil => []
  | .cons c cs => rawSegments c ++ rawSegmentsList cs

end

mutual

/-- Modelled from the spec: `raw`, the concatenated source text of a
segment. -/
def rawText : Seg → String
  | .raw _ _ t _ => t
  | .node _ _ cs => rawTextList cs

def rawTextList : SegList → String
  | .nil => ""
  | .cons c cs => rawText c ++ rawTextList cs

end

def rawLine : Seg → Nat
  | .raw _ _ _ l => l
  | .node _ _ _ => 0

/-- Modelled from the spec: `pos_marker.working_line_no`, the source line a
segment starts on (for a compound node, the line of its first raw leaf). -/
def posLine (s : Seg) : Nat :=
  match (rawSegments s).head? with
  | some r => rawLine r
  | none => 0

/-- Working line of the last raw leaf of a segment (`raw_segments[-1]`). -/
def lastRawLine (s : Seg) : Nat :=
  match (rawSegments s).getLast? with
  | some r => rawLine r
  | none => 0

mutual

/-- Whether `target` occurs in the subtree rooted at the first segment
(that segment itself included). -/
def subtreeContains : Seg → Seg → Bool
  | .raw i k tx l, target => decide (Seg.raw i k tx l = target)
  | .node i k cs, target => decide (Seg.node i k cs = target) || subtreeContainsList cs target

def subtreeContainsList : SegList → Seg → Bool
  | .nil, _ => false
  | .cons c cs, t => subtreeContains c t || subtreeContainsList cs t

end

mutual

/-- Modelled from the spec: `path_to`, the ordered list of ancestors from
the root down to the direct parent of `target` (empty when `root` is
`target` or `target` is not in the subtree). -/
def pathTo : Seg → Seg → List Seg
  | .raw _ _ _ _, _ => []
  | .node i k cs, target =>
      if Seg.node i k cs = target then []
      else if cs.toList.any (fun c => decide (c = target)) then [Seg.node i k cs]
      else
        match pathToList cs target with
        | some p => Seg.node i k cs :: p
        | none => []

def pathToList : SegList → Seg → Option (List Seg)
  | .nil, _ => none
  | .cons c cs, target =>
      if subtreeContains c target then some (pathTo c target) else pathToList cs target

end

mutual

/-- Modelled from the spec: `recursive_crawl`, the list of all segments of a
given type in the subtree (the segment itself included), in document
order. -/
def recursiveCrawl (t : String) : Seg → List Seg
  | .raw i k tx l => if isType (Seg.raw i k tx l) t then [Seg.raw i k tx l] else []
  | .node i k cs =>
      (if isType (Seg.node i k cs) t then [Seg.node i k cs] else []) ++ recursiveCrawlList t cs

def recursiveCrawlList (t : String) : SegList → List Seg
  | .nil => []
  | .cons c cs => recursiveCrawl t c ++ recursiveCrawlList t cs

end

-- A few sanity checks on the tree layer.
example : isType (Seg.raw 1 "inline_comment" "-- x" 1) "comment" = true := by decide
example : isType (Seg.raw 1 "newline" "\n" 1) "whitespace" = false := by decide
example : isWhitespace (Seg.raw 1 "newline" "\n" 1) = true := by decide
example :
    pathTo (Seg.node 0 "file" (segsOf [Seg.node 1 "statement" (segsOf [Seg.raw 2 "word" "SELECT" 1])]))
      (Seg.raw 2 "word" "SELECT" 1)
    = [Seg.node 0 "file" (segsOf [Seg.node 1 "statement" (segsOf [Seg.raw 2 "word" "SELECT" 1])]),
       Seg.node 1 "statement" (segsOf [Seg.raw 2 "word" "SELECT" 1])] := by decide

/-!
## Edit operations and results

`LintFix.createAfter/createBefore/replace/delete` mirror
`LintFix.create_after/create_before/replace/delete`; the inserted segments
are freshly created ones (`CreateSeg`), as in the source. -/

inductive CreateSeg where
  | newline
  | symbol (raw : String) (kind : String)
deriving DecidableEq

inductive LintFix where
  | createAfter (anchor : Seg) (edit : List CreateSeg)
  | createBefore (anchor : Seg) (edit : List CreateSeg)
  | replace (anchor : Seg) (edit : List CreateSeg)
  | delete (seg : Seg)
deriving DecidableEq

structure LintResult where
  anchor : Seg
  fixes : List LintFix
  description : Option String
deriving DecidableEq

structure Config where
  multilineNewline : Bool
  requireFinalSemicolon : Bool
deriving DecidableEq

/-!
## Segment Selector

These model the `Segments.select` combinator instances used by CV06:
select with a `start_seg` iterates over the elements strictly after the
first occurrence of the start segment, stops at the first element failing
`loop_while`, and keeps those passing `select_if`. -/

/-- Everything strictly after the first occurrence of `t` (empty when `t`
is absent). -/
def dropThroughSeg : List Seg → Seg → List Seg
  | [], _ => []
  | s :: rest, t => if s = t then rest else dropThroughSeg rest t

/-- Modelled from the spec: `select(loop_while=p, start_seg=t)`. -/
def selectLoopWhileFrom (l : List Seg) (p : Seg → Bool) (t : Seg) : List Seg :=
  (dropThroughSeg l t).takeWhile p

/-- Modelled from the spec: `select(select_if=p, start_seg=t)`. -/
def selectIfFrom (l : List Seg) (p : Seg → Bool) (t : Seg) : List Seg :=
  (dropThroughSeg l t).filter p

/-- Index of the first occurrence of `t`, counting from `i`. -/
def indexOfFrom : List Seg → Seg → Nat → Option Nat
  | [], _, _ => none
  | s :: rest, t, i => if s = t then some i else indexOfFrom rest t (i + 1)

/-!
## Rule CV06 (`convention.terminator`)

Each definition below is a direct translation of the correspondingly
named method of `Rule_CV06`. -/

/-- `SegmentMoveContext` of the source. -/
structure SegmentMoveContext where
  anchorSegment : Seg
  isOneLine : Bool
  beforeSegment : List Seg
  whitespaceDeletions : List Seg
deriving DecidableEq

/-- `Rule_CV06._handle_preceding_inline_comments`. -/
def handlePrecedingInlineComments (beforeSegment : List Seg) (anchorSegment : Seg) :
    List Seg × Seg :=
  let sameLineComment := beforeSegment.find? (fun s =>
    isComment s && !(isType s "block_comment") &&
      (posLine s == lastRawLine anchorSegment))
  match sameLineComment with
  | some c => (beforeSegment.takeWhile (fun s => decide (s ≠ c)), c)
  | none => (beforeSegment, anchorSegment)

/-- `Rule_CV06._handle_trailing_inline_comments`. -/
def handleTrailingInlineComments (parentSegment anchorSegment : Seg) : Seg :=
  (recursiveCrawl "comment" parentSegment).foldl
    (fun a c => if posLine c == posLine a && !(isType c "block_comment") then c else a)
    anchorSegment

/-- `Rule_CV06._is_one_line_statement`. -/
def isOneLineStatement (parentSegment segment : Seg) : Bool :=
  match (pathTo parentSegment segment).find? (fun s => isType s "statement") with
  | none => false
  | some statementSegment => (recursiveCrawl "newline" statementSegment).isEmpty

/-- `Rule_CV06._get_segment_move_context`. -/
def getSegmentMoveContext (targetSegment parentSegment : Seg) : SegmentMoveContext :=
  let reversedRawStack := (rawSegments parentSegment).reverse
  let beforeCode := selectLoopWhileFrom reversedRawStack (fun s => !isCode s) targetSegment
  let beforeSegment := beforeCode.filter (fun s => !isMeta s)
  let anchorSegment := beforeCode.getLast?.getD targetSegment
  let firstCode := (selectIfFrom reversedRawStack (fun s => isCode s) targetSegment).head?
  let isOneLine :=
    match firstCode with
    | some fc => isOneLineStatement parentSegment fc
    | none => false
  let whitespaceDeletions := beforeSegment.takeWhile (fun s => isWhitespace s)
  ⟨anchorSegment, isOneLine, beforeSegment, whitespaceDeletions⟩

/-- The newline decision `self.multiline_newline if not is_one_line else False`,
shared by `_handle_semicolon`, `_ensure_final_semicolon` and
`_handle_missing_semicolon`. -/
def newlineDecision (multilineNewline isOneLine : Bool) : Bool :=
  if !isOneLine then multilineNewline else false

/-- Modelled from the spec: `BaseRule._choose_anchor_segment` (rule engine
code outside the two source files): resolve the anchor for a `create_after`
to the nearest non-meta segment, skipping zero-width synthetic markers
backwards over the raw stack. -/
def chooseAnchorSegment (parentSegment anchorSegment : Seg) : Seg :=
  if !isMeta anchorSegment then anchorSegment
  else
    let raws := rawSegments parentSegment
    match ((raws.takeWhile (fun s => decide (s ≠ anchorSegment))).filter
        (fun s => !isMeta s)).getLast? with
    | some s => s
    | none => anchorSegment

/-- `Rule_CV06._create_semicolon_and_delete_whitespace`. -/
def createSemicolonAndDeleteWhitespace (targetSegment parentSegment anchorSegment : Seg)
    (whitespaceDeletions : List Seg) (createSegments : List CreateSeg) : List LintFix :=
  let anchor := chooseAnchorSegment parentSegment anchorSegment
  if anchor ∈ whitespaceDeletions then
    [LintFix.replace anchor createSegments, LintFix.delete targetSegment]
      ++ (whitespaceDeletions.filter (fun s => decide (s ≠ anchor))).map LintFix.delete
  else
    [LintFix.createAfter anchor createSegments, LintFix.delete targetSegment]
      ++ whitespaceDeletions.map LintFix.delete

/-- `Rule_CV06._is_semicolon_terminator`. -/
def isSemicolonTerminator (s : Seg) : Bool :=
  isType s "statement_terminator" && rawText s == ";"

/-- `Rule_CV06._is_safe_to_remove_between_semicolons` (defined in the
source, not referenced by any caller). -/
def isSafeToRemoveBetweenSemicolons (s : Seg) : Bool :=
  isType s "whitespace" || isType s "newline"

/-- The inner lookahead of `_handle_repeated_semicolons`: starting from the
suffix after a whitespace segment, is the next non-whitespace segment a
semicolon terminator? -/
def hasSemicolonAfterWhitespace (rest : List Seg) : Bool :=
  match (rest.dropWhile (fun s => isType s "whitespace")).head? with
  | some s => isSemicolonTerminator s
  | none => false

/-- The scanning `while` loop of `_handle_repeated_semicolons`: walks the
suffix of the parent's children starting at position `i`, collecting
consecutive semicolon terminators, and returns the collected list together
with the final value of `current_search_idx`. -/
def collectConsecutiveSemicolons (segments : List Seg) :
    List Seg → Nat → List Seg → List Seg × Nat
  | [], i, acc => (acc, i)
  | cur :: rest, i, acc =>
      if isSemicolonTerminator cur then
        collectConsecutiveSemicolons segments rest (i + 1) (acc ++ [cur])
      else if isType cur "whitespace" then
        if hasSemicolonAfterWhitespace rest then
          collectConsecutiveSemicolons segments rest (i + 1) acc
        else (acc, segments.length)
      else (acc, segments.length)

/-- `Rule_CV06._handle_repeated_semicolons`. -/
def handleRepeatedSemicolons (targetSegment parentSegment : Seg) : Option LintResult :=
  let segments := childrenOf parentSegment
  match indexOfFrom segments targetSegment 0 with
  | none => none
  | some currentIdx =>
      let scan := collectConsecutiveSemicolons segments
        (segments.drop (currentIdx + 1)) (currentIdx + 1) [targetSegment]
      let consecutiveSemicolons := scan.1
      let currentSearchIdx := scan.2
      if consecutiveSemicolons.length > 1 then
        let extraSemicolonRemovalFixes :=
          (consecutiveSemicolons.drop 1).map LintFix.delete
        let whitespaceFixes :=
          (List.range' (currentIdx + 1) (currentSearchIdx - (currentIdx + 1))).filterMap
            (fun i =>
              match segments[i]? with
              | some s =>
                  if isType s "whitespace" && !(decide (s ∈ consecutiveSemicolons)) then
                    some (LintFix.delete s)
                  else none
              | none => none)
        some ⟨targetSegment, extraSemicolonRemovalFixes ++ whitespaceFixes, none⟩
      else none

/-- `Rule_CV06._handle_semicolon_same_line`. -/
def handleSemicolonSameLine (targetSegment parentSegment : Seg)
    (info : SegmentMoveContext) : Option LintResult :=
  if info.beforeSegment.isEmpty then none
  else
    some ⟨info.anchorSegment,
      createSemicolonAndDeleteWhitespace targetSegment parentSegment info.anchorSegment
        info.whitespaceDeletions [CreateSeg.symbol ";" "statement_terminator"],
      none⟩

/-- `Rule_CV06._handle_semicolon_newline`. -/
def handleSemicolonNewline (targetSegment parentSegment : Seg)
    (info : SegmentMoveContext) : Option LintResult :=
  let adjusted := handlePrecedingInlineComments info.beforeSegment info.anchorSegment
  let adjustedBeforeSegments := adjusted.1
  let adjustedAnchor := adjusted.2
  if adjustedBeforeSegments.length == 1
      && adjustedBeforeSegments.all (fun s => isType s "newline") then none
  else
    let anchorAfterTrailingComments :=
      handleTrailingInlineComments parentSegment adjustedAnchor
    if anchorAfterTrailingComments = targetSegment then
      some ⟨anchorAfterTrailingComments,
        [LintFix.replace anchorAfterTrailingComments
          [CreateSeg.newline, CreateSeg.symbol ";" "statement_terminator"]],
        none⟩
    else
      some ⟨anchorAfterTrailingComments,
        createSemicolonAndDeleteWhitespace targetSegment parentSegment
          anchorAfterTrailingComments info.whitespaceDeletions
          [CreateSeg.newline, CreateSeg.symbol ";" "statement_terminator"],
        none⟩

/-- `Rule_CV06._handle_semicolon`. -/
def handleSemicolon (cfg : Config) (targetSegment parentSegment : Seg) : Option LintResult :=
  if rawText targetSegment ≠ ";" then none
  else
    match handleRepeatedSemicolons targetSegment parentSegment with
    | some r => some r
    | none =>
        let info := getSegmentMoveContext targetSegment parentSegment
        let semicolonNewline := newlineDecision cfg.multilineNewline info.isOneLine
        if !semicolonNewline then
          handleSemicolonSameLine targetSegment parentSegment info
        else
          handleSemicolonNewline targetSegment parentSegment info

/-- The backward scan of `_ensure_final_semicolon`: walks the reversed
children, accumulating non-meta segments until the first code segment,
and returns `(non_meta_segments_before_code, anchor_segment,
trigger_segment)` exactly as the Python `for` loop leaves them. -/
def ensureFinalScan : List Seg → Seg → Seg → List Seg → List Seg × Seg × Seg
  | [], anchor, trigger, acc => (acc, anchor, trigger)
  | s :: rest, _, trigger, acc =>
      if isCode s then (acc, s, trigger)
      else ensureFinalScan rest s s (if !isMeta s then acc ++ [s] else acc)

/-- `Rule_CV06._ensure_final_semicolon`. -/
def ensureFinalSemicolon (cfg : Config) (parentSegment : Seg) : Option LintResult :=
  let segments := childrenOf parentSegment
  match segments.reverse.find? (fun s => isCode s) with
  | none => none
  | some lastCodeSegment =>
      let finalSemicolonExists :=
        segments.reverse.any (fun s => isType s "statement_terminator")
      let statementIsSingleLine := isOneLineStatement parentSegment lastCodeSegment
      let scan := ensureFinalScan segments.reverse (segments.getLastD default)
        (segments.getLastD default) []
      let nonMetaSegmentsBeforeCode := scan.1
      let anchorSegment := scan.2.1
      let triggerSegment := scan.2.2
      let shouldUseNewlineBeforeSemicolon :=
        newlineDecision cfg.multilineNewline statementIsSingleLine
      if !finalSemicolonExists then
        if !shouldUseNewlineBeforeSemicolon then
          some ⟨triggerSegment,
            [LintFix.createAfter (chooseAnchorSegment parentSegment anchorSegment)
              [CreateSeg.symbol ";" "statement_terminator"]],
            none⟩
        else
          let adjusted := handlePrecedingInlineComments nonMetaSegmentsBeforeCode anchorSegment
          some ⟨triggerSegment,
            [LintFix.createAfter (chooseAnchorSegment parentSegment adjusted.2)
              [CreateSeg.newline, CreateSeg.symbol ";" "statement_terminator"]],
            none⟩
      else none

/-- `Rule_CV06._handle_missing_semicolon`. -/
def handleMissingSemicolon (cfg : Config) (statementSegment parentSegment : Seg) :
    Option LintResult :=
  match (childrenOf statementSegment).reverse.find? (fun s => !isMeta s) with
  | none => none
  | some lastNonMetaSegment =>
      let statementIsSingleLine := isOneLineStatement parentSegment statementSegment
      let shouldUseNewlineBeforeSemicolon :=
        newlineDecision cfg.multilineNewline statementIsSingleLine
      let anchorAfterInlineComments :=
        handleTrailingInlineComments parentSegment lastNonMetaSegment
      let segmentsToAdd :=
        if shouldUseNewlineBeforeSemicolon then
          [CreateSeg.newline, CreateSeg.symbol ";" "statement_terminator"]
        else [CreateSeg.symbol ";" "statement_terminator"]
      let finalAnchorSegment := chooseAnchorSegment parentSegment anchorAfterInlineComments
      some ⟨lastNonMetaSegment,
        [LintFix.createAfter finalAnchorSegment segmentsToAdd],
        none⟩

/-- The main `for idx, seg in enumerate(...)` loop of `Rule_CV06._eval`:
returns the accumulated results together with the final
`statements_needing_semicolons` queue.  The `idx == len - 1` test of the
source is rendered as `rest.isEmpty`. -/
def evalLoop (cfg : Config) (rootSegment : Seg) :
    List Seg → List LintResult → List Seg → List LintResult × List Seg
  | [], results, pending => (results, pending)
  | seg :: rest, results, pending =>
      let pending1 := if isType seg "statement" then pending ++ [seg] else pending
      let step :=
        if isType seg "statement_terminator" then
          (handleSemicolon cfg seg rootSegment,
           if pending1.isEmpty then pending1 else pending1.dropLast)
        else if cfg.requireFinalSemicolon && rest.isEmpty then
          (ensureFinalSemicolon cfg rootSegment, pending1)
        else ((none : Option LintResult), pending1)
      evalLoop cfg rootSegment rest
        (match step.1 with
         | some r => results ++ [r]
         | none => results)
        step.2

/-- `Rule_CV06._eval`. -/
def evalCV06 (cfg : Config) (rootSegment : Seg) : List LintResult :=
  let scan := evalLoop cfg rootSegment (childrenOf rootSegment) [] []
  let results := scan.1
  let statementsNeedingSemicolons := scan.2
  if cfg.requireFinalSemicolon then
    let lastStatement :=
      (childrenOf rootSegment).reverse.find? (fun s => isType s "statement")
    results ++ statementsNeedingSemicolons.filterMap (fun statement =>
      if (match lastStatement with
          | some ls => decide (statement ≠ ls)
          | none => true) then
        handleMissingSemicolon cfg statement rootSegment
      else none)
  else results

/-!
## Rule OR01 (`oracle.slash_terminator`)

Direct translation of `Rule_OR01._eval`.  The rule context carries the
dialect name, the matched segment, the parent stack and the segment's
`pos_marker.source_slice.start`. -/

/-- Modelled from the spec: Python `str.strip()` as used by the slash
matcher (`context.segment.raw.strip()`). -/
def strStrip (s : String) : String :=
  ⟨((s.data.dropWhile Char.isWhitespace).reverse.dropWhile Char.isWhitespace).reverse⟩

/-- Modelled from the spec: the Python substring test `"\n" in raw` on a
raw segment's text. -/
def strContainsNewline (s : String) : Bool :=
  s.data.contains '\n'

structure OracleContext where
  dialectName : String
  segment : Seg
  parentStack : List Seg
  sourceSliceStart : Nat
deriving DecidableEq

/-- `Rule_OR01._eval`. -/
def evalOR01 (ctx : OracleContext) : Option LintResult :=
  if ctx.dialectName ≠ "oracle" then none
  else if strStrip (rawText ctx.segment) ≠ "/" then none
  else if ctx.sourceSliceStart == 0 then none
  else if ctx.parentStack.isEmpty then none
  else
    let siblings := childrenOf (ctx.parentStack.getLastD default)
    match indexOfFrom siblings ctx.segment 0 with
    | none => none
    | some idx =>
        if idx > 0 then
          match siblings[idx - 1]? with
          | some prevSeg =>
              if !(isType prevSeg "newline"
                  || (isType prevSeg "whitespace" && strContainsNewline (rawText prevSeg))) then
                some ⟨ctx.segment,
                  [LintFix.createBefore ctx.segment [CreateSeg.newline]],
                  some "Slash terminator should be on a new line."⟩
              else none
          | none => none
        else none

/-!
## Concrete example trees

Small parsed files used by witnesses and counterexamples below. -/

def exS11 : Seg := .raw 11 "raw" "SELECT 1" 1
def exStmt1 : Seg := .node 10 "statement" (segsOf [exS11])
def exT1 : Seg := .raw 20 "statement_terminator" ";" 1
def exT2 : Seg := .raw 21 "statement_terminator" ";" 1
def exWsA : Seg := .raw 22 "whitespace" " " 1
def exS31 : Seg := .raw 31 "raw" "SELECT 2" 1
def exStmt2 : Seg := .node 30 "statement" (segsOf [exS31])
def exWsB : Seg := .raw 32 "whitespace" " " 1
def exS41 : Seg := .raw 41 "raw" "SELECT 3" 1
def exStmt3 : Seg := .node 40 "statement" (segsOf [exS41])

/-- Top level of `SELECT 1;; SELECT 2 SELECT 3`:
statement, `;`, `;`, whitespace, statement, whitespace, statement. -/
def exFileC1 : Seg :=
  .node 0 "file" (segsOf [exStmt1, exT1, exT2, exWsA, exStmt2, exWsB, exStmt3])

/-- Top level of `SELECT 1 ;`: statement, whitespace, `;`. -/
def exFileD : Seg := .node 3 "file" (segsOf [exStmt1, exWsA, exT1])

/-- A multi-line statement `SELECT\n1`. -/
def exR51 : Seg := .raw 51 "raw" "SELECT" 1
def exNl52 : Seg := .raw 52 "newline" "\n" 1
def exR53 : Seg := .raw 53 "raw" "1" 2
def exStmtM : Seg := .node 50 "statement" (segsOf [exR51, exNl52, exR53])
def exNl54 : Seg := .raw 54 "newline" "\n" 2
def exTM : Seg := .raw 55 "statement_terminator" ";" 3

/-- Top level of `SELECT\n1\n;`: multi-line statement, newline, `;`. -/
def exFileE : Seg := .node 4 "file" (segsOf [exStmtM, exNl54, exTM])

def exCm : Seg := .raw 61 "inline_comment" "-- noqa" 1

/-- Top level of `SELECT 1 -- noqa\n;`: statement, whitespace, inline
comment, newline, `;`. -/
def exFileF : Seg := .node 5 "file" (segsOf [exStmt1, exWsA, exCm, exNl54, exT1])

/-- Top level of a file missing a mid-file terminator:
statement, `;`, statement, whitespace, statement. -/
def exFileH : Seg := .node 7 "file" (segsOf [exStmt1, exT1, exStmt2, exWsB, exStmt3])

def exSlash : Seg := .raw 70 "statement_terminator" "/" 1

/-- Top level of `SELECT 1/` (an Oracle-style slash terminator). -/
def exFileI : Seg := .node 8 "file" (segsOf [exStmt1, exSlash])

/-- Counterexample tree for the trailing-comment scan: the terminator of the
multi-line first statement sits on line 2, and an inline comment on line 2
lives inside the *second* statement. -/
def exC72 : Seg := .raw 72 "inline_comment" "-- c" 2
def exS74 : Seg := .raw 74 "raw" "SELECT 2" 2
def exStmt2c : Seg := .node 73 "statement" (segsOf [exS74, exC72])
def exAnch : Seg := .raw 75 "whitespace" " " 2
def exT76 : Seg := .raw 76 "statement_terminator" ";" 2
def exFileJ : Seg := .node 9 "file" (segsOf [exStmtM, exAnch, exT76, exStmt2c])

def exOracleParent : Seg := .node 8 "file" (segsOf [exStmt1, exWsA, exSlash])
def exOracleCtx : OracleContext := ⟨"oracle", exSlash, [exOracleParent], 9⟩

/-!
## Helper lemmas about segment classifications -/

theorem isCommentKind_of_isComment {s : Seg} (h : isComment s = true) :
    isCommentKind (kindOf s) = true := by
  cases s with
  | raw i k t l => simpa [isComment, kindOf] using h
  | node i k cs => simp [isComment] at h

theorem isMeta_eq_false_of_commentKind {s : Seg} (h : isCommentKind (kindOf s) = true) :
    isMeta s = false := by
  cases s with
  | raw i k t l =>
      simp only [kindOf] at h
      simp only [isMeta]
      simp only [isCommentKind, Bool.or_eq_true, beq_iff_eq] at h
      rcases h with (h | h) | h <;> subst h <;> decide
  | node i k cs => simp [isMeta]

theorem isComment_eq_false_of_isWhitespace {s : Seg} (h : isWhitespace s = true) :
    isComment s = false := by
  cases s with
  | raw i k t l =>
      simp only [isWhitespace] at h
      simp only [isComment]
      simp only [isWhitespaceKindB, Bool.or_eq_true, beq_iff_eq] at h
      rcases h with h | h <;> subst h <;> decide
  | node i k cs => simp [isComment]

theorem kindOf_eq_of_isType {s : Seg} {t : String} (hne : (t == "comment") = false)
    (h : isType s t = true) : kindOf s = t := by
  simp only [isType, hne, Bool.false_and, Bool.or_false, beq_iff_eq] at h
  exact h

theorem isComment_eq_false_of_kind {s : Seg} {t : String}
    (hk : kindOf s = t) (ht : isCommentKind t = false) : isComment s = false := by
  cases s with
  | raw i k tx l =>
      simp only [kindOf] at hk
      subst hk
      simpa [isComment] using ht
  | node i k cs => simp [isComment]

theorem isComment_eq_false_of_isType_terminator {s : Seg}
    (h : isType s "statement_terminator" = true) : isComment s = false :=
  isComment_eq_false_of_kind (kindOf_eq_of_isType (by decide) h) (by decide)

theorem isComment_eq_false_of_isType_whitespace {s : Seg}
    (h : isType s "whitespace" = true) : isComment s = false :=
  isComment_eq_false_of_kind (kindOf_eq_of_isType (by decide) h) (by decide)

theorem isComment_eq_false_of_isType_newline {s : Seg}
    (h : isType s "newline" = true) : isComment s = false :=
  isComment_eq_false_of_kind (kindOf_eq_of_isType (by decide) h) (by decide)

/-!
## Claim C1 -/

/-- C1: evaluating the code at the failing input `SELECT 1;; SELECT 2 SELECT 3`
(top-level children: statement, `;`, `;`, whitespace, statement, whitespace,
statement).  The single collapse result deletes, besides the second
terminator, BOTH whitespace segments after the run — including `exWsB`,
which lies strictly between the two later statements and not between the
collapsed terminators — because the scan loop's exit value
`current_search_idx = len(segments)` is also used as the bound of the
whitespace-deletion sweep.  Applying the fixes would merge the second and
third statements. -/
theorem cv06_repeated_semicolons_delete_beyond_run :
    childrenOf exFileC1 = [exStmt1, exT1, exT2, exWsA, exStmt2, exWsB, exStmt3] ∧
    evalCV06 ⟨false, false⟩ exFileC1 =
      [⟨exT1, [LintFix.delete exT2, LintFix.delete exWsA, LintFix.delete exWsB], none⟩] := by
  decide

/-!
## Claim C2 -/

/-- C2: the decision to require a newline before the terminator is the
conjunction of the `multiline_newline` option with the negation of the
statement's single-line status, and `_handle_semicolon` dispatches between
its newline and same-line paths on exactly this conjunction. -/
theorem cv06_newline_decision_is_conjunction :
    (∀ m o, newlineDecision m o = (m && !o)) ∧
    (∀ cfg targetSegment parentSegment, rawText targetSegment = ";" →
      handleRepeatedSemicolons targetSegment parentSegment = none →
      handleSemicolon cfg targetSegment parentSegment =
        (if cfg.multilineNewline
            && !(getSegmentMoveContext targetSegment parentSegment).isOneLine then
          handleSemicolonNewline targetSegment parentSegment
            (getSegmentMoveContext targetSegment parentSegment)
        else
          handleSemicolonSameLine targetSegment parentSegment
            (getSegmentMoveContext targetSegment parentSegment))) := by
  constructor
  · intro m o
    cases m <;> cases o <;> rfl
  · intro cfg target parent hraw hrep
    simp only [handleSemicolon, hraw, hrep, ne_eq, not_true_eq_false, if_false,
      ite_false, newlineDecision]
    cases hm : cfg.multilineNewline <;>
      cases ho : (getSegmentMoveContext target parent).isOneLine <;> simp

/-- C2 witness: the dispatch equation instantiated on the concrete file
`SELECT 1 ;`. -/
theorem cv06_newline_decision_is_conjunction_witness :
    newlineDecision true false = (true && !false) ∧
    handleSemicolon ⟨false, false⟩ exT1 exFileD =
      (if (Config.mk false false).multilineNewline
          && !(getSegmentMoveContext exT1 exFileD).isOneLine then
        handleSemicolonNewline exT1 exFileD (getSegmentMoveContext exT1 exFileD)
      else
        handleSemicolonSameLine exT1 exFileD (getSegmentMoveContext exT1 exFileD)) :=
  ⟨cv06_newline_decision_is_conjunction.1 true false,
   cv06_newline_decision_is_conjunction.2 ⟨false, false⟩ exT1 exFileD (by decide) (by decide)⟩

/-!
## Claim C7 -/

/-- C7 counterexample: in `exFileJ` the anchor `exAnch` (the whitespace
before the first statement's terminator, line 2) is adjusted to the inline
comment `exC72`, although that comment lives inside the *second* statement
`exStmt2c` and not inside the owning statement `exStmtM` of the terminator
being processed — the adjustment scans the whole file, not the owning
statement, so the claim's statement-scoped scan is refuted. -/
theorem cv06_trailing_comment_scan_not_statement_scoped :
    handleTrailingInlineComments exFileJ exAnch = exC72 ∧
    exC72 ∉ recursiveCrawl "comment" exStmtM ∧
    exC72 ∈ recursiveCrawl "comment" exStmt2c ∧
    exAnch ≠ exC72 := by
  decide

/-- Auxiliary: a fold that replaces the accumulator by each matching element
computes the last match of the original predicate, provided matching
preserves the predicate. -/
theorem foldl_lastMatch (p : Seg → Seg → Bool)
    (hp : ∀ a c, p a c = true → ∀ d, p c d = p a d) :
    ∀ (l : List Seg) (a : Seg),
      l.foldl (fun x c => if p x c then c else x) a = (l.filter (p a)).getLastD a := by
  intro l
  induction l with
  | nil => intro a; rfl
  | cons c l ih =>
      intro a
      by_cases h : p a c = true
      · simp only [List.foldl_cons, List.filter_cons, h, if_pos h, if_true]
        rw [List.getLastD_cons, ih c]
        congr 1
        exact List.filter_congr (fun d _ => hp a c h d)
      · have h' : p a c = false := by
          cases hac : p a c
          · rfl
          · exact absurd hac h
        simp only [List.foldl_cons, List.filter_cons, h', if_neg h, Bool.false_eq_true,
          if_false, ite_false]
        exact ih a

/-- C7 amended: the trailing-comment adjustment scans the whole parent
segment passed to it (the file root at its call sites), and the anchor
becomes the LAST inline non-block comment in document order sharing the
current anchor's working line (unchanged when there is none). -/
theorem cv06_trailing_comment_scan_whole_file :
    ∀ parentSegment anchorSegment,
      handleTrailingInlineComments parentSegment anchorSegment =
        ((recursiveCrawl "comment" parentSegment).filter
          (fun c => posLine c == posLine anchorSegment
            && !(isType c "block_comment"))).getLastD anchorSegment := by
  intro parent anchor
  refine foldl_lastMatch
    (fun a c => posLine c == posLine a && !(isType c "block_comment")) ?_ _ _
  intro a c h d
  simp only [Bool.and_eq_true, beq_iff_eq] at h
  show (posLine d == posLine c && !(isType d "block_comment"))
      = (posLine d == posLine a && !(isType d "block_comment"))
  rw [h.1]

/-!
## Claim C5 -/

/-- C5: when a terminator (not part of a repeated run) is preceded by
exactly one non-meta trivia segment which is a newline, the statement is
not single-line, and `multiline_newline` is set, the handler emits no
result: the terminator is already correctly placed. -/
theorem cv06_multiline_newline_already_placed :
    ∀ cfg targetSegment parentSegment nl,
      cfg.multilineNewline = true →
      rawText targetSegment = ";" →
      handleRepeatedSemicolons targetSegment parentSegment = none →
      (getSegmentMoveContext targetSegment parentSegment).beforeSegment = [nl] →
      isType nl "newline" = true →
      (getSegmentMoveContext targetSegment parentSegment).isOneLine = false →
      handleSemicolon cfg targetSegment parentSegment = none := by
  intro cfg target parent nl hm hraw hrep hbefore hnl hone
  have hcomment : isComment nl = false := isComment_eq_false_of_isType_newline hnl
  simp only [handleSemicolon, hraw, hrep, ne_eq, not_true_eq_false, if_false, ite_false]
  simp only [newlineDecision, hone, hm, Bool.not_false, if_true, ite_true]
  simp only [handleSemicolonNewline, handlePrecedingInlineComments, hbefore]
  simp [hcomment, hnl]

/-- C5 witness: on the concrete file `SELECT\n1\n;` with
`multiline_newline = true` the terminator produces no result. -/
theorem cv06_multiline_newline_already_placed_witness :
    handleSemicolon ⟨true, false⟩ exTM exFileE = none :=
  cv06_multiline_newline_already_placed ⟨true, false⟩ exTM exFileE exNl54
    (by decide) (by decide) (by decide) (by decide) (by decide) (by decide)

/-!
## Claim C8 -/

/-- C8: the Oracle slash checker emits nothing whenever the dialect is not
`oracle`; and for a slash terminator not at the file start whose immediate
previous sibling is neither a newline nor whitespace containing a newline,
it emits exactly one fix inserting a newline immediately before the
slash. -/
theorem or01_slash_newline_fix :
    (∀ ctx, ctx.dialectName ≠ "oracle" → evalOR01 ctx = none) ∧
    (∀ ctx idx prevSeg,
      ctx.dialectName = "oracle" →
      rawText ctx.segment = "/" →
      ctx.sourceSliceStart ≠ 0 →
      ctx.parentStack ≠ [] →
      indexOfFrom (childrenOf (ctx.parentStack.getLastD default)) ctx.segment 0 = some idx →
      0 < idx →
      (childrenOf (ctx.parentStack.getLastD default))[idx - 1]? = some prevSeg →
      isType prevSeg "newline" = false →
      (isType prevSeg "whitespace" && strContainsNewline (rawText prevSeg)) = false →
      evalOR01 ctx =
        some ⟨ctx.segment, [LintFix.createBefore ctx.segment [CreateSeg.newline]],
          some "Slash terminator should be on a new line."⟩) := by
  constructor
  · intro ctx h
    simp only [evalOR01, h, ne_eq, not_false_eq_true, if_true, ite_true]
  · intro ctx idx prevSeg hdia hraw hstart hstack hidx hpos hprev hnl hws
    have htrim : strStrip (rawText ctx.segment) = "/" := by rw [hraw]; decide
    have hstartb : (ctx.sourceSliceStart == 0) = false := by
      simpa using hstart
    have hstackb : ctx.parentStack.isEmpty = false := by
      cases hps : ctx.parentStack
      · exact absurd hps hstack
      · rfl
    simp only [evalOR01, hdia, htrim, hstartb, hstackb, ne_eq, not_true_eq_false,
      if_false, ite_false, Bool.false_eq_true]
    simp only [hidx, hpos, hprev, hnl, hws, if_pos hpos]
    simp

/-- C8 witness: the two directions instantiated on a concrete slash
terminator context. -/
theorem or01_slash_newline_fix_witness :
    evalOR01 exOracleCtx =
      some ⟨exSlash, [LintFix.createBefore exSlash [CreateSeg.newline]],
        some "Slash terminator should be on a new line."⟩ ∧
    evalOR01 ⟨"ansi", exSlash, [exOracleParent], 9⟩ = none :=
  ⟨or01_slash_newline_fix.2 exOracleCtx 2 exWsA (by decide) (by decide) (by decide)
      (by decide) (by decide) (by decide) (by decide) (by decide) (by decide),
   or01_slash_newline_fix.1 ⟨"ansi", exSlash, [exOracleParent], 9⟩ (by decide)⟩

/-!
## Claim C10 -/

/-- The effect of one driver iteration on the pending-termination queue
(the results accumulator does not influence it). -/
def pendingStep (seg : Seg) (pending : List Seg) : List Seg :=
  let pending1 := if isType seg "statement" then pending ++ [seg] else pending
  if isType seg "statement_terminator" then
    (if pending1.isEmpty then pending1 else pending1.dropLast)
  else pending1

theorem evalLoop_snd_eq_foldl (cfg : Config) (rootSegment : Seg) :
    ∀ (segs : List Seg) (results : List LintResult) (pending : List Seg),
      (evalLoop cfg rootSegment segs results pending).2 =
        segs.foldl (fun p s => pendingStep s p) pending := by
  intro segs
  induction segs with
  | nil => intro results pending; rfl
  | cons seg rest ih =>
      intro results pending
      simp only [evalLoop, List.foldl_cons]
      by_cases hterm : isType seg "statement_terminator" = true
      · simp only [hterm, if_true, ite_true]
        rw [ih]
        simp [pendingStep, hterm]
      · have hterm' : isType seg "statement_terminator" = false := by
          cases h : isType seg "statement_terminator"
          · rfl
          · exact absurd h hterm
        simp only [hterm', Bool.false_eq_true, if_false, ite_false]
        rw [ih]
        simp only [pendingStep, hterm', Bool.false_eq_true, if_false, ite_false]
        congr 1
        split <;> rfl

theorem mem_pendingStep {x : Seg} {seg : Seg} {pending : List Seg}
    (h : x ∈ pendingStep seg pending) : x ∈ pending ∨ x = seg := by
  unfold pendingStep at h
  by_cases hst : isType seg "statement" = true
  · simp only [hst, if_true, ite_true] at h
    by_cases hterm : isType seg "statement_terminator" = true
    · simp only [hterm, if_true, ite_true] at h
      split at h
      · rcases List.mem_append.mp h with h' | h'
        · exact Or.inl h'
        · exact Or.inr (List.mem_singleton.mp h')
      · have := List.dropLast_subset _ h
        rcases List.mem_append.mp this with h' | h'
        · exact Or.inl h'
        · exact Or.inr (List.mem_singleton.mp h')
    · have hterm' : isType seg "statement_terminator" = false := by
        cases hh : isType seg "statement_terminator"
        · rfl
        · exact absurd hh hterm
      simp only [hterm', Bool.false_eq_true, if_false, ite_false] at h
      rcases List.mem_append.mp h with h' | h'
      · exact Or.inl h'
      · exact Or.inr (List.mem_singleton.mp h')
  · have hst' : isType seg "statement" = false := by
      cases hh : isType seg "statement"
      · rfl
      · exact absurd hh hst
    simp only [hst', Bool.false_eq_true, if_false, ite_false] at h
    by_cases hterm : isType seg "statement_terminator" = true
    · simp only [hterm, if_true, ite_true] at h
      split at h
      · exact Or.inl h
      · exact Or.inl (List.dropLast_subset _ h)
    · have hterm' : isType seg "statement_terminator" = false := by
        cases hh : isType seg "statement_terminator"
        · rfl
        · exact absurd hh hterm
      simp only [hterm', Bool.false_eq_true, if_false, ite_false] at h
      exact Or.inl h

theorem mem_foldl_pendingStep {x : Seg} :
    ∀ (segs : List Seg) (pending : List Seg),
      x ∈ segs.foldl (fun p s => pendingStep s p) pending → x ∈ pending ∨ x ∈ segs := by
  intro segs
  induction segs with
  | nil => intro pending h; exact Or.inl h
  | cons seg rest ih =>
      intro pending h
      rcases ih (pendingStep seg pending) h with h' | h'
      · rcases mem_pendingStep h' with h'' | h''
        · exact Or.inl h''
        · exact Or.inr (h'' ▸ List.mem_cons_self _ _)
      · exact Or.inr (List.mem_cons_of_mem _ h')

theorem isType_eq_false_of_kind {s : Seg} {k t : String} (hk : kindOf s = k)
    (h1 : (k == t) = false) (h2 : (t == "comment") = false) : isType s t = false := by
  simp [isType, hk, h1, h2]

/-!
## Claim C3 -/

/-- Spec-side notion of subtree membership: `Descend s d` holds when `d` is
`s` itself or lies somewhere below `s` through the child relation. -/
inductive Descend : Seg → Seg → Prop where
  | refl (s : Seg) : Descend s s
  | step {c d : Seg} (s : Seg) (hc : c ∈ childrenOf s) (hd : Descend c d) : Descend s d

mutual

/-- Structural induction over `Seg` with the children exposed as a list. -/
def segStrongInd (P : Seg → Prop)
    (hraw : ∀ i k tx l, P (.raw i k tx l))
    (hnode : ∀ i k cs, (∀ c ∈ SegList.toList cs, P c) → P (.node i k cs)) :
    ∀ s, P s
  | .raw i k tx l => hraw i k tx l
  | .node i k cs => hnode i k cs (segListStrongInd P hraw hnode cs)

def segListStrongInd (P : Seg → Prop)
    (hraw : ∀ i k tx l, P (.raw i k tx l))
    (hnode : ∀ i k cs, (∀ c ∈ SegList.toList cs, P c) → P (.node i k cs)) :
    ∀ cs : SegList, ∀ c ∈ SegList.toList cs, P c
  | .nil => fun c hc => absurd hc (by simp [SegList.toList])
  | .cons h t => fun c hc => by
      rcases List.mem_cons.mp hc with he | hm
      · exact he ▸ segStrongInd P hraw hnode h
      · exact segListStrongInd P hraw hnode t c hm

end

theorem mem_recursiveCrawlList {t : String} :
    ∀ (cs : SegList) (d : Seg),
      d ∈ recursiveCrawlList t cs ↔ ∃ c ∈ SegList.toList cs, d ∈ recursiveCrawl t c
  | .nil, d => by simp [recursiveCrawlList, SegList.toList]
  | .cons h tl, d => by
      simp only [recursiveCrawlList, SegList.toList, List.mem_append,
        mem_recursiveCrawlList tl d, List.mem_cons]
      constructor
      · rintro (hm | ⟨c, hc, hm⟩)
        · exact ⟨h, Or.inl rfl, hm⟩
        · exact ⟨c, Or.inr hc, hm⟩
      · rintro ⟨c, hc | hc, hm⟩
        · exact Or.inl (hc ▸ hm)
        · exact Or.inr ⟨c, hc, hm⟩

theorem mem_recursiveCrawl {t : String} :
    ∀ (s d : Seg), d ∈ recursiveCrawl t s ↔ (Descend s d ∧ isType d t = true) := by
  intro s
  refine segStrongInd
    (fun s => ∀ d, d ∈ recursiveCrawl t s ↔ (Descend s d ∧ isType d t = true)) ?_ ?_ s
  · intro i k tx l d
    constructor
    · intro hm
      by_cases hT : isType (Seg.raw i k tx l) t = true
      · simp only [recursiveCrawl, hT, if_true, ite_true, List.mem_singleton] at hm
        subst hm
        exact ⟨Descend.refl _, hT⟩
      · simp only [recursiveCrawl, hT, Bool.false_eq_true, if_false, ite_false,
          List.not_mem_nil] at hm
    · rintro ⟨hd, hT⟩
      cases hd with
      | refl => simp [recursiveCrawl, hT]
      | step s hc hd' => simp [childrenOf] at hc
  · intro i k cs ih d
    simp only [recursiveCrawl, List.mem_append, mem_recursiveCrawlList]
    constructor
    · rintro (hm | ⟨c, hc, hm⟩)
      · by_cases hT : isType (Seg.node i k cs) t = true
        · simp only [hT, if_true, ite_true, List.mem_singleton] at hm
          subst hm
          exact ⟨Descend.refl _, hT⟩
        · simp only [hT, Bool.false_eq_true, if_false, ite_false, List.not_mem_nil] at hm
      · have h2 := (ih c hc d).mp hm
        exact ⟨Descend.step _ (by simpa [childrenOf] using hc) h2.1, h2.2⟩
    · rintro ⟨hd, hT⟩
      cases hd with
      | refl =>
          left
          simp [hT]
      | step s hc hd' =>
          right
          refine ⟨_, by simpa [childrenOf] using hc, ?_⟩
          exact (ih _ (by simpa [childrenOf] using hc) d).mpr ⟨hd', hT⟩

theorem isType_newline_iff (d : Seg) : isType d "newline" = true ↔ kindOf d = "newline" := by
  simp only [isType, Bool.or_eq_true, Bool.and_eq_true, beq_iff_eq]
  constructor
  · rintro (h | ⟨h, _⟩)
    · exact h
    · exact absurd h (by decide)
  · intro h
    exact Or.inl h

/-- C3: the single-line classification of a segment returns true iff the
first statement ancestor on the path from the root has no newline-kind
segment anywhere in its subtree, and returns false (no special behaviour)
when there is no statement ancestor. -/
theorem cv06_single_line_iff_no_newline_descendant :
    ∀ parentSegment segment,
      (∀ st, (pathTo parentSegment segment).find? (fun s => isType s "statement") = some st →
        (isOneLineStatement parentSegment segment = true ↔
          ¬ ∃ d, Descend st d ∧ kindOf d = "newline")) ∧
      ((pathTo parentSegment segment).find? (fun s => isType s "statement") = none →
        isOneLineStatement parentSegment segment = false) := by
  intro parent seg
  constructor
  · intro st hfind
    unfold isOneLineStatement
    rw [hfind]
    constructor
    · rintro hempty ⟨d, hd, hk⟩
      have hmem : d ∈ recursiveCrawl "newline" st :=
        (mem_recursiveCrawl st d).mpr ⟨hd, (isType_newline_iff d).mpr hk⟩
      rw [List.isEmpty_iff] at hempty
      rw [hempty] at hmem
      cases hmem
    · intro hno
      rw [List.isEmpty_iff]
      by_contra hne
      obtain ⟨d, hd⟩ := List.exists_mem_of_ne_nil _ hne
      have h2 := (mem_recursiveCrawl st d).mp hd
      exact hno ⟨d, h2.1, (isType_newline_iff d).mp h2.2⟩
  · intro hfind
    unfold isOneLineStatement
    rw [hfind]

/-- C3 witness: in the concrete file `SELECT 1 ;` the raw `SELECT 1` has the
statement node as its first statement ancestor, and the classification
agrees with the absence of newline descendants. -/
theorem cv06_single_line_iff_no_newline_descendant_witness :
    (pathTo exFileD exS11).find? (fun s => isType s "statement") = some exStmt1 ∧
    (isOneLineStatement exFileD exS11 = true ↔
      ¬ ∃ d, Descend exStmt1 d ∧ kindOf d = "newline") :=
  ⟨by decide,
   (cv06_single_line_iff_no_newline_descendant exFileD exS11).1 exStmt1 (by decide)⟩

/-!
## Shared infrastructure for the edit-set invariants (C4, C6) -/

theorem getSegmentMoveContext_beforeSegment (t p : Seg) :
    (getSegmentMoveContext t p).beforeSegment =
      (selectLoopWhileFrom (rawSegments p).reverse (fun s => !isCode s) t).filter
        (fun s => !isMeta s) := rfl

theorem getSegmentMoveContext_anchorSegment (t p : Seg) :
    (getSegmentMoveContext t p).anchorSegment =
      ((selectLoopWhileFrom (rawSegments p).reverse (fun s => !isCode s) t).getLast?).getD t :=
  rfl

theorem getSegmentMoveContext_whitespaceDeletions (t p : Seg) :
    (getSegmentMoveContext t p).whitespaceDeletions =
      ((selectLoopWhileFrom (rawSegments p).reverse (fun s => !isCode s) t).filter
        (fun s => !isMeta s)).takeWhile (fun s => isWhitespace s) := rfl

/-- The §3 invariant: no edit set both deletes a node and inserts after or
replaces at that identical node. -/
def noDeleteInsertConflict (fixes : List LintFix) : Prop :=
  ∀ x, LintFix.delete x ∈ fixes →
    ∀ e, LintFix.createAfter x e ∉ fixes ∧ LintFix.replace x e ∉ fixes

theorem noconflict_of_all_deletes {fixes : List LintFix}
    (h : ∀ f ∈ fixes, ∃ x, f = LintFix.delete x) : noDeleteInsertConflict fixes := by
  intro x _ e
  constructor
  · intro hca
    rcases h _ hca with ⟨y, hy⟩
    cases hy
  · intro hrep
    rcases h _ hrep with ⟨y, hy⟩
    cases hy

theorem noconflict_single_createAfter {a : Seg} {cs : List CreateSeg} :
    noDeleteInsertConflict [LintFix.createAfter a cs] := by
  intro x hdel e
  simp at hdel

theorem noconflict_single_replace {a : Seg} {cs : List CreateSeg} :
    noDeleteInsertConflict [LintFix.replace a cs] := by
  intro x hdel e
  simp at hdel

/-- Classification of the fixes produced by
`_create_semicolon_and_delete_whitespace`. -/
theorem csdw_mem {targetSegment parentSegment anchorSegment : Seg}
    {whitespaceDeletions : List Seg} {createSegments : List CreateSeg} :
    ∀ f ∈ createSemicolonAndDeleteWhitespace targetSegment parentSegment anchorSegment
        whitespaceDeletions createSegments,
      f = LintFix.createAfter (chooseAnchorSegment parentSegment anchorSegment)
        createSegments ∨
      (f = LintFix.replace (chooseAnchorSegment parentSegment anchorSegment) createSegments ∧
        chooseAnchorSegment parentSegment anchorSegment ∈ whitespaceDeletions) ∨
      f = LintFix.delete targetSegment ∨
      ∃ x ∈ whitespaceDeletions, f = LintFix.delete x := by
  intro f hf
  unfold createSemicolonAndDeleteWhitespace at hf
  by_cases hmem : chooseAnchorSegment parentSegment anchorSegment ∈ whitespaceDeletions
  · rw [if_pos hmem] at hf
    simp only [List.cons_append, List.nil_append, List.mem_cons, List.mem_map,
      List.mem_filter] at hf
    rcases hf with hf | hf | ⟨x, ⟨hx, _⟩, hfx⟩
    · exact Or.inr (Or.inl ⟨hf, hmem⟩)
    · exact Or.inr (Or.inr (Or.inl hf))
    · exact Or.inr (Or.inr (Or.inr ⟨x, hx, hfx.symm⟩))
  · rw [if_neg hmem] at hf
    simp only [List.cons_append, List.nil_append, List.mem_cons, List.mem_map] at hf
    rcases hf with hf | hf | ⟨x, hx, hfx⟩
    · exact Or.inl hf
    · exact Or.inr (Or.inr (Or.inl hf))
    · exact Or.inr (Or.inr (Or.inr ⟨x, hx, hfx.symm⟩))

/-- `_create_semicolon_and_delete_whitespace` never conflicts a delete with
an insert-after or replace at the same node, provided the resolved anchor
differs from the deleted target. -/
theorem csdw_noconflict {targetSegment parentSegment anchorSegment : Seg}
    {whitespaceDeletions : List Seg} {createSegments : List CreateSeg}
    (hne : chooseAnchorSegment parentSegment anchorSegment ≠ targetSegment) :
    noDeleteInsertConflict (createSemicolonAndDeleteWhitespace targetSegment parentSegment
      anchorSegment whitespaceDeletions createSegments) := by
  intro x hdel e
  set anchor := chooseAnchorSegment parentSegment anchorSegment with hanchor
  unfold createSemicolonAndDeleteWhitespace at hdel ⊢
  rw [← hanchor] at hdel ⊢
  by_cases hmem : anchor ∈ whitespaceDeletions
  · rw [if_pos hmem] at hdel ⊢
    simp only [List.cons_append, List.nil_append, List.mem_cons, List.mem_map,
      List.mem_filter, decide_eq_true_eq] at hdel
    rcases hdel with hdel | hdel | ⟨y, ⟨hy, hyne⟩, hfy⟩
    · cases hdel
    · -- x = targetSegment
      have hx : x = targetSegment := by injection hdel
      constructor
      · intro hca
        simp only [List.cons_append, List.nil_append, List.mem_cons, List.mem_map,
          List.mem_filter] at hca
        rcases hca with hca | hca | ⟨y, _, hfy⟩
        · cases hca
        · cases hca
        · cases hfy
      · intro hrep
        simp only [List.cons_append, List.nil_append, List.mem_cons, List.mem_map,
          List.mem_filter] at hrep
        rcases hrep with hrep | hrep | ⟨y, _, hfy⟩
        · have : x = anchor := by injection hrep
          exact hne (this ▸ hx ▸ rfl)
        · cases hrep
        · cases hfy
    · -- x ∈ filtered deletions, x ≠ anchor
      have hx : y = x := by injection hfy
      subst hx
      constructor
      · intro hca
        simp only [List.cons_append, List.nil_append, List.mem_cons, List.mem_map,
          List.mem_filter] at hca
        rcases hca with hca | hca | ⟨z, _, hfz⟩
        · cases hca
        · cases hca
        · cases hfz
      · intro hrep
        simp only [List.cons_append, List.nil_append, List.mem_cons, List.mem_map,
          List.mem_filter] at hrep
        rcases hrep with hrep | hrep | ⟨z, _, hfz⟩
        · have : y = anchor := by injection hrep
          exact hyne this
        · cases hrep
        · cases hfz
  · rw [if_neg hmem] at hdel ⊢
    simp only [List.cons_append, List.nil_append, List.mem_cons, List.mem_map] at hdel
    rcases hdel with hdel | hdel | ⟨y, hy, hfy⟩
    · cases hdel
    · have hx : x = targetSegment := by injection hdel
      constructor
      · intro hca
        simp only [List.cons_append, List.nil_append, List.mem_cons, List.mem_map] at hca
        rcases hca with hca | hca | ⟨z, _, hfz⟩
        · have : x = anchor := by injection hca
          exact hne (this ▸ hx ▸ rfl)
        · cases hca
        · cases hfz
      · intro hrep
        simp only [List.cons_append, List.nil_append, List.mem_cons, List.mem_map] at hrep
        rcases hrep with hrep | hrep | ⟨z, _, hfz⟩
        · cases hrep
        · cases hrep
        · cases hfz
    · have hx : y = x := by injection hfy
      subst hx
      constructor
      · intro hca
        simp only [List.cons_append, List.nil_append, List.mem_cons, List.mem_map] at hca
        rcases hca with hca | hca | ⟨z, _, hfz⟩
        · have : y = anchor := by injection hca
          exact hmem (this ▸ hy)
        · cases hca
        · cases hfz
      · intro hrep
        simp only [List.cons_append, List.nil_append, List.mem_cons, List.mem_map] at hrep
        rcases hrep with hrep | hrep | ⟨z, _, hfz⟩
        · cases hrep
        · cases hrep
        · cases hfz

theorem mem_of_getLast?_eq_some : ∀ {l : List Seg} {a : Seg}, l.getLast? = some a → a ∈ l
  | [], _, h => by cases h
  | [x], a, h => by
      simp only [List.getLast?_singleton, Option.some_inj] at h
      exact h ▸ List.mem_singleton_self _
  | x :: y :: l, a, h => by
      rw [List.getLast?_cons_cons] at h
      exact List.mem_cons_of_mem _ (mem_of_getLast?_eq_some h)

theorem mem_of_mem_takeWhileSeg {p : Seg → Bool} :
    ∀ {l : List Seg} {a : Seg}, a ∈ l.takeWhile p → a ∈ l
  | [], _, h => by cases h
  | x :: l, a, h => by
      rw [List.takeWhile_cons] at h
      by_cases hx : p x = true
      · rw [if_pos hx] at h
        rcases List.mem_cons.mp h with h1 | h1
        · exact h1 ▸ List.mem_cons_self _ _
        · exact List.mem_cons_of_mem _ (mem_of_mem_takeWhileSeg h1)
      · rw [if_neg hx] at h
        cases h

theorem pred_of_mem_takeWhileSeg {p : Seg → Bool} :
    ∀ {l : List Seg} {a : Seg}, a ∈ l.takeWhile p → p a = true
  | [], _, h => by cases h
  | x :: l, a, h => by
      rw [List.takeWhile_cons] at h
      by_cases hx : p x = true
      · rw [if_pos hx] at h
        rcases List.mem_cons.mp h with h1 | h1
        · exact h1 ▸ hx
        · exact pred_of_mem_takeWhileSeg h1
      · rw [if_neg hx] at h
        cases h

theorem dropThroughSeg_eq_nil_of_not_mem {l : List Seg} {t : Seg} (h : t ∉ l) :
    dropThroughSeg l t = [] := by
  induction l with
  | nil => rfl
  | cons s rest ih =>
      rw [dropThroughSeg,
        if_neg (fun he => h (by rw [← he]; exact List.mem_cons_self _ _))]
      exact ih (fun hm => h (List.mem_cons_of_mem _ hm))

theorem dropThroughSeg_decomp {l : List Seg} {t : Seg} (h : t ∈ l) :
    ∃ X, l = X ++ t :: dropThroughSeg l t ∧ t ∉ X := by
  induction l with
  | nil => cases h
  | cons s rest ih =>
      by_cases he : s = t
      · subst he
        refine ⟨[], ?_, by simp⟩
        rw [dropThroughSeg, if_pos rfl]
        simp
      · rcases List.mem_cons.mp h with h1 | h1
        · exact absurd h1.symm he
        · obtain ⟨X, hX, hnX⟩ := ih h1
          refine ⟨s :: X, ?_, ?_⟩
          · rw [dropThroughSeg, if_neg he, List.cons_append]
            exact congrArg (s :: ·) hX
          · intro hm
            rcases List.mem_cons.mp hm with h2 | h2
            · exact he h2.symm
            · exact hnX h2

theorem mem_left_of_mem_takeWhile_ne {a : Seg} :
    ∀ (P rest : List Seg), a ∈ P →
      ∀ x ∈ (P ++ rest).takeWhile (fun s => decide (s ≠ a)), x ∈ P := by
  intro P
  induction P with
  | nil =>
      intro rest h
      cases h
  | cons p P ih =>
      intro rest ha x hx
      rw [List.cons_append, List.takeWhile_cons] at hx
      by_cases hpa : p = a
      · rw [if_neg (by simp [hpa])] at hx
        cases hx
      · rw [if_pos (by simp [hpa])] at hx
        rcases List.mem_cons.mp hx with h1 | h1
        · exact h1 ▸ List.mem_cons_self _ _
        · have ha' : a ∈ P := by
            rcases List.mem_cons.mp ha with h2 | h2
            · exact absurd h2.symm hpa
            · exact h2
          exact List.mem_cons_of_mem _ (ih rest ha' x h1)

theorem chooseAnchorSegment_cases (parentSegment anchorSegment : Seg) :
    chooseAnchorSegment parentSegment anchorSegment = anchorSegment ∨
    (isMeta anchorSegment = true ∧
      chooseAnchorSegment parentSegment anchorSegment ∈
        (rawSegments parentSegment).takeWhile (fun s => decide (s ≠ anchorSegment))) := by
  by_cases hm : isMeta anchorSegment = true
  · cases hg : (((rawSegments parentSegment).takeWhile
        (fun s => decide (s ≠ anchorSegment))).filter (fun s => !isMeta s)).getLast? with
    | none =>
        left
        unfold chooseAnchorSegment
        rw [hm]
        simp only [Bool.not_true, Bool.false_eq_true, if_false, ite_false]
        rw [hg]
    | some s =>
        right
        refine ⟨hm, ?_⟩
        have hval : chooseAnchorSegment parentSegment anchorSegment = s := by
          unfold chooseAnchorSegment
          rw [hm]
          simp only [Bool.not_true, Bool.false_eq_true, if_false, ite_false]
          rw [hg]
        rw [hval]
        have hmem := mem_of_getLast?_eq_some hg
        exact (List.mem_filter.mp hmem).1
  · left
    have hm' : isMeta anchorSegment = false := by
      cases hh : isMeta anchorSegment
      · rfl
      · exact absurd hh hm
    unfold chooseAnchorSegment
    rw [hm']
    simp

theorem chooseAnchor_ne_target_of_beforeCode
    {rootSegment targetSegment a : Seg}
    (hnodup : (rawSegments rootSegment).Nodup)
    (ha : a ∈ selectLoopWhileFrom (rawSegments rootSegment).reverse
      (fun s => !isCode s) targetSegment) :
    chooseAnchorSegment rootSegment a ≠ targetSegment := by
  have haD : a ∈ dropThroughSeg (rawSegments rootSegment).reverse targetSegment :=
    mem_of_mem_takeWhileSeg ha
  by_cases htm : targetSegment ∈ (rawSegments rootSegment).reverse
  · obtain ⟨X, hXeq, hXnot⟩ := dropThroughSeg_decomp htm
    set D := dropThroughSeg (rawSegments rootSegment).reverse targetSegment with hD
    have hnodup_rr : ((rawSegments rootSegment).reverse).Nodup :=
      List.nodup_reverse.mpr hnodup
    have htD : targetSegment ∉ D := by
      rw [hXeq] at hnodup_rr
      have h2 : (targetSegment :: D).Nodup := List.Nodup.of_append_right hnodup_rr
      exact (List.nodup_cons.mp h2).1
    have hat : a ≠ targetSegment := fun he => htD (he ▸ haD)
    rcases chooseAnchorSegment_cases rootSegment a with hca | ⟨_, hmem⟩
    · rw [hca]
      exact hat
    · have hraws_eq : rawSegments rootSegment =
          D.reverse ++ (targetSegment :: X.reverse) := by
        have h1 : rawSegments rootSegment = ((rawSegments rootSegment).reverse).reverse :=
          (List.reverse_reverse _).symm
        rw [h1, hXeq]
        rw [List.reverse_append, List.reverse_cons]
        simp [List.append_assoc]
      intro he
      have hin : chooseAnchorSegment rootSegment a ∈ D.reverse := by
        rw [hraws_eq] at hmem
        exact mem_left_of_mem_takeWhile_ne _ _ (List.mem_reverse.mpr haD) _ hmem
      rw [he] at hin
      exact htD (List.mem_reverse.mp hin)
  · rw [dropThroughSeg_eq_nil_of_not_mem htm] at haD
    cases haD

theorem isCommentKind_of_isType_comment {s : Seg} (h : isType s "comment" = true) :
    isCommentKind (kindOf s) = true := by
  simp only [isType, Bool.or_eq_true, Bool.and_eq_true, beq_iff_eq] at h
  rcases h with h | ⟨_, h⟩
  · simp [isCommentKind, h]
  · exact h

theorem foldl_choice (f : Seg → Seg → Bool) :
    ∀ (l : List Seg) (a : Seg),
      l.foldl (fun x c => if f x c then c else x) a = a ∨
      l.foldl (fun x c => if f x c then c else x) a ∈ l := by
  intro l
  induction l with
  | nil => intro a; exact Or.inl rfl
  | cons c l ih =>
      intro a
      rw [List.foldl_cons]
      rcases ih (if f a c then c else a) with h | h
      · rw [h]
        by_cases hc : f a c = true
        · rw [if_pos hc]
          exact Or.inr (List.mem_cons_self _ _)
        · rw [if_neg hc]
          exact Or.inl rfl
      · exact Or.inr (List.mem_cons_of_mem _ h)

/-- The trailing-comment adjustment yields the argument anchor or a segment
of the comment crawl. -/
theorem htc_result_cases (parentSegment anchorSegment : Seg) :
    handleTrailingInlineComments parentSegment anchorSegment = anchorSegment ∨
    handleTrailingInlineComments parentSegment anchorSegment ∈
      recursiveCrawl "comment" parentSegment := by
  unfold handleTrailingInlineComments
  exact foldl_choice _ (recursiveCrawl "comment" parentSegment) anchorSegment

/-- If the trailing-comment adjustment returns a meta segment, it returned
its argument unchanged (crawled comments are never meta). -/
theorem htc_meta {parentSegment anchorSegment : Seg}
    (h : isMeta (handleTrailingInlineComments parentSegment anchorSegment) = true) :
    handleTrailingInlineComments parentSegment anchorSegment = anchorSegment := by
  rcases htc_result_cases parentSegment anchorSegment with hc | hc
  · exact hc
  · exfalso
    have h2 := (mem_recursiveCrawl parentSegment _).mp hc
    have hck := isCommentKind_of_isType_comment h2.2
    rw [isMeta_eq_false_of_commentKind hck] at h
    cases h

/-- If the preceding-comment adjustment returns a meta segment, it returned
its argument unchanged (the comment it may select is never meta). -/
theorem hpc_meta {beforeSegment : List Seg} {anchorSegment : Seg}
    (h : isMeta (handlePrecedingInlineComments beforeSegment anchorSegment).2 = true) :
    (handlePrecedingInlineComments beforeSegment anchorSegment).2 = anchorSegment := by
  unfold handlePrecedingInlineComments at h ⊢
  cases hf : beforeSegment.find? (fun s =>
      isComment s && !(isType s "block_comment") && (posLine s == lastRawLine anchorSegment)) with
  | none => rfl
  | some c =>
      rw [hf] at h
      have hmc : isMeta c = true := h
      have hpred := List.find?_some hf
      simp only [Bool.and_eq_true] at hpred
      have hc : isComment c = true := hpred.1.1
      exfalso
      rw [isMeta_eq_false_of_commentKind (isCommentKind_of_isComment hc)] at hmc
      cases hmc

/-- With a non-empty `before_segment`, the move-context anchor is a member
of the backward non-code scan. -/
theorem anchorSegment_mem_beforeCode {targetSegment parentSegment : Seg}
    (h : (getSegmentMoveContext targetSegment parentSegment).beforeSegment ≠ []) :
    (getSegmentMoveContext targetSegment parentSegment).anchorSegment ∈
      selectLoopWhileFrom (rawSegments parentSegment).reverse (fun s => !isCode s)
        targetSegment := by
  rw [getSegmentMoveContext_beforeSegment] at h
  rw [getSegmentMoveContext_anchorSegment]
  cases hg : (selectLoopWhileFrom (rawSegments parentSegment).reverse
      (fun s => !isCode s) targetSegment).getLast? with
  | none =>
      exfalso
      rw [List.getLast?_eq_none_iff] at hg
      rw [hg] at h
      simp at h
  | some x =>
      exact mem_of_getLast?_eq_some hg

/-- The repeated-terminator scan extends its accumulator only by semicolon
terminators. -/
theorem collectConsecutive_decomp (segments : List Seg) :
    ∀ (rest : List Seg) (i : Nat) (acc : List Seg),
      ∃ app, (collectConsecutiveSemicolons segments rest i acc).1 = acc ++ app ∧
        ∀ x ∈ app, isSemicolonTerminator x = true := by
  intro rest
  induction rest with
  | nil =>
      intro i acc
      exact ⟨[], by simp [collectConsecutiveSemicolons], by intro x hx; cases hx⟩
  | cons cur rest ih =>
      intro i acc
      rw [collectConsecutiveSemicolons]
      by_cases h1 : isSemicolonTerminator cur = true
      · rw [if_pos h1]
        obtain ⟨app, happ, hall⟩ := ih (i + 1) (acc ++ [cur])
        refine ⟨cur :: app, ?_, ?_⟩
        · rw [happ, List.append_assoc]
          rfl
        · intro x hx
          rcases List.mem_cons.mp hx with h2 | h2
          · exact h2 ▸ h1
          · exact hall x h2
      · rw [if_neg h1]
        by_cases h2 : isType cur "whitespace" = true
        · rw [if_pos h2]
          by_cases h3 : hasSemicolonAfterWhitespace rest = true
          · rw [if_pos h3]
            exact ih (i + 1) acc
          · rw [if_neg h3]
            exact ⟨[], by simp, by intro x hx; cases hx⟩
        · rw [if_neg h2]
          exact ⟨[], by simp, by intro x hx; cases hx⟩

/-- Every fix of a repeated-terminator collapse result deletes either a
semicolon terminator or a whitespace-typed segment. -/
theorem handleRepeatedSemicolons_fixes {targetSegment parentSegment : Seg} {r : LintResult}
    (h : handleRepeatedSemicolons targetSegment parentSegment = some r) :
    ∀ f ∈ r.fixes, ∃ x, f = LintFix.delete x ∧
      (isSemicolonTerminator x = true ∨ isType x "whitespace" = true) := by
  unfold handleRepeatedSemicolons at h
  cases hidx : indexOfFrom (childrenOf parentSegment) targetSegment 0 with
  | none =>
      simp only [hidx] at h
      cases h
  | some currentIdx =>
      simp only [hidx] at h
      split at h
      · injection h with h
        subst h
        intro f hf
        rcases List.mem_append.mp hf with h1 | h1
        · rcases List.mem_map.mp h1 with ⟨x, hx, hfx⟩
          refine ⟨x, hfx.symm, Or.inl ?_⟩
          obtain ⟨app, happ, hall⟩ := collectConsecutive_decomp (childrenOf parentSegment)
            ((childrenOf parentSegment).drop (currentIdx + 1)) (currentIdx + 1)
            [targetSegment]
          rw [happ] at hx
          have : x ∈ app := by
            simpa using hx
          exact hall x this
        · rcases List.mem_filterMap.mp h1 with ⟨i, _, hsome⟩
          split at hsome
          · rename_i x s heq
            split at hsome
            · rename_i hcond
              rw [Bool.and_eq_true] at hcond
              injection hsome with hsome
              exact ⟨s, hsome.symm, Or.inr hcond.1⟩
            · cases hsome
          · cases hsome
      · cases h

/-- Provenance of results accumulated by the driver loop. -/
theorem evalLoop_results_mem (cfg : Config) (rootSegment : Seg) :
    ∀ (segs : List Seg) (results : List LintResult) (pending : List Seg) (r : LintResult),
      r ∈ (evalLoop cfg rootSegment segs results pending).1 →
      r ∈ results ∨
      (∃ seg, isType seg "statement_terminator" = true ∧
        handleSemicolon cfg seg rootSegment = some r) ∨
      ensureFinalSemicolon cfg rootSegment = some r := by
  intro segs
  induction segs with
  | nil =>
      intro results pending r h
      exact Or.inl h
  | cons seg rest ih =>
      intro results pending r h
      simp only [evalLoop] at h
      by_cases hterm : isType seg "statement_terminator" = true
      · simp only [hterm, if_true, ite_true] at h
        cases hs : handleSemicolon cfg seg rootSegment with
        | none =>
            rw [hs] at h
            exact ih results _ r h
        | some r' =>
            rw [hs] at h
            rcases ih (results ++ [r']) _ r h with hin | hrest
            · rcases List.mem_append.mp hin with h1 | h1
              · exact Or.inl h1
              · have hr : r = r' := List.mem_singleton.mp h1
                subst hr
                exact Or.inr (Or.inl ⟨seg, hterm, hs⟩)
            · exact Or.inr hrest
      · have hterm' : isType seg "statement_terminator" = false := by
          cases hh : isType seg "statement_terminator"
          · rfl
          · exact absurd hh hterm
        simp only [hterm', Bool.false_eq_true, if_false, ite_false] at h
        by_cases hlast : (cfg.requireFinalSemicolon && rest.isEmpty) = true
        · simp only [hlast, if_true, ite_true] at h
          cases he : ensureFinalSemicolon cfg rootSegment with
          | none =>
              rw [he] at h
              rcases ih results _ r h with h1 | h1 | h1
              · exact Or.inl h1
              · exact Or.inr (Or.inl h1)
              · exact Or.inr (Or.inr (he ▸ h1))
          | some r' =>
              rw [he] at h
              rcases ih (results ++ [r']) _ r h with hin | h1 | h1
              · rcases List.mem_append.mp hin with h2 | h2
                · exact Or.inl h2
                · have hr : r = r' := List.mem_singleton.mp h2
                  subst hr
                  exact Or.inr (Or.inr rfl)
              · exact Or.inr (Or.inl h1)
              · exact Or.inr (Or.inr (he ▸ h1))
        · have hlast' : (cfg.requireFinalSemicolon && rest.isEmpty) = false := by
            cases hh : (cfg.requireFinalSemicolon && rest.isEmpty)
            · rfl
            · exact absurd hh hlast
          simp only [hlast', Bool.false_eq_true, if_false, ite_false] at h
          exact ih results _ r h

/-- Provenance of the results of one full evaluation: each comes from the
per-terminator handler, the final-terminator check, or the
missing-terminator sweep. -/
theorem evalCV06_results_mem {cfg : Config} {rootSegment : Seg} {r : LintResult}
    (h : r ∈ evalCV06 cfg rootSegment) :
    (∃ seg, isType seg "statement_terminator" = true ∧
      handleSemicolon cfg seg rootSegment = some r) ∨
    ensureFinalSemicolon cfg rootSegment = some r ∨
    (∃ st, handleMissingSemicolon cfg st rootSegment = some r) := by
  unfold evalCV06 at h
  by_cases hreq : cfg.requireFinalSemicolon = true
  · simp only [hreq, if_true, ite_true] at h
    rcases List.mem_append.mp h with h1 | h1
    · rcases evalLoop_results_mem cfg rootSegment _ _ _ r h1 with h2 | h2 | h2
      · cases h2
      · exact Or.inl h2
      · exact Or.inr (Or.inl h2)
    · rcases List.mem_filterMap.mp h1 with ⟨st, _, hsome⟩
      split at hsome
      · exact Or.inr (Or.inr ⟨st, hsome⟩)
      · cases hsome
  · have hreq' : cfg.requireFinalSemicolon = false := by
      cases hh : cfg.requireFinalSemicolon
      · rfl
      · exact absurd hh hreq
    simp only [hreq', Bool.false_eq_true, if_false, ite_false] at h
    rcases evalLoop_results_mem cfg rootSegment _ _ _ r h with h2 | h2 | h2
    · cases h2
    · exact Or.inl h2
    · exact Or.inr (Or.inl h2)

/-- The final-terminator check only ever emits a single `create_after`. -/
theorem ensureFinalSemicolon_fixes {cfg : Config} {p : Seg} {r : LintResult}
    (h : ensureFinalSemicolon cfg p = some r) :
    ∃ a cs, r.fixes = [LintFix.createAfter a cs] := by
  unfold ensureFinalSemicolon at h
  cases hf : (childrenOf p).reverse.find? (fun s => isCode s) with
  | none =>
      simp only [hf] at h
      cases h
  | some lastCode =>
      simp only [hf] at h
      split at h
      · split at h
        · injection h with h
          subst h
          exact ⟨_, _, rfl⟩
        · injection h with h
          subst h
          exact ⟨_, _, rfl⟩
      · cases h

/-- The missing-terminator sweep only ever emits a single `create_after`. -/
theorem handleMissingSemicolon_fixes {cfg : Config} {st p : Seg} {r : LintResult}
    (h : handleMissingSemicolon cfg st p = some r) :
    ∃ a cs, r.fixes = [LintFix.createAfter a cs] := by
  unfold handleMissingSemicolon at h
  cases hf : (childrenOf st).reverse.find? (fun s => !isMeta s) with
  | none =>
      simp only [hf] at h
      cases h
  | some lastNonMeta =>
      simp only [hf] at h
      injection h with h
      subst h
      exact ⟨_, _, rfl⟩

/-- Case analysis of `_handle_semicolon_same_line` results. -/
theorem handleSemicolonSameLine_cases {t p : Seg} {info : SegmentMoveContext}
    {r : LintResult} (h : handleSemicolonSameLine t p info = some r) :
    r.fixes = createSemicolonAndDeleteWhitespace t p info.anchorSegment
      info.whitespaceDeletions [CreateSeg.symbol ";" "statement_terminator"] ∧
    info.beforeSegment ≠ [] := by
  unfold handleSemicolonSameLine at h
  split at h
  · cases h
  · rename_i hne
    injection h with h
    subst h
    refine ⟨rfl, ?_⟩
    intro he
    apply hne
    rw [he]
    rfl

/-- Case analysis of `_handle_semicolon_newline` results. -/
theorem handleSemicolonNewline_cases {t p : Seg} {info : SegmentMoveContext}
    {r : LintResult} (h : handleSemicolonNewline t p info = some r) :
    (r.fixes = [LintFix.replace t
        [CreateSeg.newline, CreateSeg.symbol ";" "statement_terminator"]] ∧
      handleTrailingInlineComments p
        (handlePrecedingInlineComments info.beforeSegment info.anchorSegment).2 = t) ∨
    (r.fixes = createSemicolonAndDeleteWhitespace t p
        (handleTrailingInlineComments p
          (handlePrecedingInlineComments info.beforeSegment info.anchorSegment).2)
        info.whitespaceDeletions
        [CreateSeg.newline, CreateSeg.symbol ";" "statement_terminator"] ∧
      handleTrailingInlineComments p
        (handlePrecedingInlineComments info.beforeSegment info.anchorSegment).2 ≠ t) := by
  simp only [handleSemicolonNewline] at h
  split at h
  · cases h
  · split at h
    · rename_i heq
      injection h with h
      subst h
      left
      exact ⟨by rw [heq], heq⟩
    · rename_i hne
      injection h with h
      subst h
      right
      exact ⟨rfl, hne⟩

/-- Case analysis of `_handle_semicolon` results. -/
theorem handleSemicolon_cases {cfg : Config} {t p : Seg} {r : LintResult}
    (h : handleSemicolon cfg t p = some r) :
    handleRepeatedSemicolons t p = some r ∨
    (handleRepeatedSemicolons t p = none ∧
      (handleSemicolonSameLine t p (getSegmentMoveContext t p) = some r ∨
       handleSemicolonNewline t p (getSegmentMoveContext t p) = some r)) := by
  unfold handleSemicolon at h
  split at h
  · cases h
  · cases hrep : handleRepeatedSemicolons t p with
    | some r' =>
        simp only [hrep] at h
        exact Or.inl h
    | none =>
        simp only [hrep] at h
        refine Or.inr ⟨rfl, ?_⟩
        split at h
        · exact Or.inl h
        · exact Or.inr h

/-- The resolved anchor of the newline path differs from the target
terminator (under duplicate-free raw segments). -/
theorem newline_resolved_ne_target {targetSegment parentSegment : Seg}
    (hnodup : (rawSegments parentSegment).Nodup)
    (hne : handleTrailingInlineComments parentSegment
      (handlePrecedingInlineComments
        (getSegmentMoveContext targetSegment parentSegment).beforeSegment
        (getSegmentMoveContext targetSegment parentSegment).anchorSegment).2 ≠
      targetSegment) :
    chooseAnchorSegment parentSegment
      (handleTrailingInlineComments parentSegment
        (handlePrecedingInlineComments
          (getSegmentMoveContext targetSegment parentSegment).beforeSegment
          (getSegmentMoveContext targetSegment parentSegment).anchorSegment).2) ≠
      targetSegment := by
  set A := (getSegmentMoveContext targetSegment parentSegment).anchorSegment with hA
  set B := (handlePrecedingInlineComments
    (getSegmentMoveContext targetSegment parentSegment).beforeSegment A).2 with hB
  set C := handleTrailingInlineComments parentSegment B with hC
  rcases chooseAnchorSegment_cases parentSegment C with hca | ⟨hmeta, _⟩
  · rw [hca]
    exact hne
  · rw [hC] at hmeta
    have e2 : handleTrailingInlineComments parentSegment B = B := htc_meta hmeta
    have hmetaB : isMeta B = true := by
      rw [← e2]
      exact hmeta
    rw [hB] at hmetaB
    have e1 : (handlePrecedingInlineComments
        (getSegmentMoveContext targetSegment parentSegment).beforeSegment A).2 = A :=
      hpc_meta hmetaB
    have hAcase : A = targetSegment ∨
        A ∈ selectLoopWhileFrom (rawSegments parentSegment).reverse (fun s => !isCode s)
          targetSegment := by
      rw [hA, getSegmentMoveContext_anchorSegment]
      cases hg : (selectLoopWhileFrom (rawSegments parentSegment).reverse
          (fun s => !isCode s) targetSegment).getLast? with
      | none => exact Or.inl rfl
      | some x => exact Or.inr (mem_of_getLast?_eq_some hg)
    have hCA : C = A := by
      rw [hC, e2, hB, e1]
    rcases hAcase with hAt | hAmem
    · exfalso
      apply hne
      rw [hCA, hAt]
    · rw [hCA]
      exact chooseAnchor_ne_target_of_beforeCode hnodup hAmem

/-- C4 core: no result of the per-terminator handler carries a conflicting
edit set. -/
theorem handleSemicolon_noconflict {cfg : Config} {rootSegment targetSegment : Seg}
    {r : LintResult} (hnodup : (rawSegments rootSegment).Nodup)
    (h : handleSemicolon cfg targetSegment rootSegment = some r) :
    noDeleteInsertConflict r.fixes := by
  rcases handleSemicolon_cases h with hrep | ⟨_, hsl | hnl⟩
  · refine noconflict_of_all_deletes (fun f hf => ?_)
    obtain ⟨x, hx, _⟩ := handleRepeatedSemicolons_fixes hrep f hf
    exact ⟨x, hx⟩
  · obtain ⟨hfx, hne⟩ := handleSemicolonSameLine_cases hsl
    rw [hfx]
    exact csdw_noconflict (chooseAnchor_ne_target_of_beforeCode hnodup
      (anchorSegment_mem_beforeCode hne))
  · rcases handleSemicolonNewline_cases hnl with ⟨hfx, _⟩ | ⟨hfx, hne⟩
    · rw [hfx]
      exact noconflict_single_replace
    · rw [hfx]
      exact csdw_noconflict (newline_resolved_ne_target hnodup hne)

/-- C4: for every result emitted by one evaluation over a tree whose raw
segments are pairwise distinct, the edit set never contains both a delete
of a node and an insert-after or replace anchored at that identical node:
the membership check in the edit synthesizer substitutes a replace and
drops the anchor from the deletion set. -/
theorem cv06_no_delete_insert_conflict :
    ∀ cfg rootSegment, (rawSegments rootSegment).Nodup →
      ∀ r ∈ evalCV06 cfg rootSegment, noDeleteInsertConflict r.fixes := by
  intro cfg root hnodup r hr
  rcases evalCV06_results_mem hr with ⟨seg, _, hsem⟩ | hef | ⟨st, hm⟩
  · exact handleSemicolon_noconflict hnodup hsem
  · obtain ⟨a, cs, hfx⟩ := ensureFinalSemicolon_fixes hef
    rw [hfx]
    exact noconflict_single_createAfter
  · obtain ⟨a, cs, hfx⟩ := handleMissingSemicolon_fixes hm
    rw [hfx]
    exact noconflict_single_createAfter

/-- C4 witness: the invariant instantiated on the result emitted for the
concrete file `SELECT 1 ;` (whose fix set is a replace plus a delete). -/
theorem cv06_no_delete_insert_conflict_witness :
    noDeleteInsertConflict (LintResult.mk exWsA
      [LintFix.replace exWsA [CreateSeg.symbol ";" "statement_terminator"],
       LintFix.delete exT1] none).fixes :=
  cv06_no_delete_insert_conflict ⟨false, false⟩ exFileD (by decide)
    (LintResult.mk exWsA
      [LintFix.replace exWsA [CreateSeg.symbol ";" "statement_terminator"],
       LintFix.delete exT1] none)
    (by decide)

theorem whitespaceDeletions_isWhitespace {t p x : Seg}
    (h : x ∈ (getSegmentMoveContext t p).whitespaceDeletions) : isWhitespace x = true := by
  rw [getSegmentMoveContext_whitespaceDeletions] at h
  exact pred_of_mem_takeWhileSeg h

/-- Every delete or replace in a per-terminator result targets a
non-comment segment (a terminator or whitespace). -/
theorem handleSemicolon_fix_subjects {cfg : Config} {rootSegment targetSegment : Seg}
    {r : LintResult}
    (hterm : isType targetSegment "statement_terminator" = true)
    (h : handleSemicolon cfg targetSegment rootSegment = some r) :
    (∀ x, LintFix.delete x ∈ r.fixes → isComment x = false) ∧
    (∀ x e, LintFix.replace x e ∈ r.fixes → isComment x = false) := by
  rcases handleSemicolon_cases h with hrep | ⟨_, hsl | hnl⟩
  · constructor
    · intro x hx
      obtain ⟨y, hy, hcl⟩ := handleRepeatedSemicolons_fixes hrep _ hx
      have hxy : x = y := by injection hy
      subst hxy
      rcases hcl with hsemi | hws
      · exact isComment_eq_false_of_isType_terminator ((Bool.and_eq_true _ _).mp hsemi).1
      · exact isComment_eq_false_of_isType_whitespace hws
    · intro x e rx
      obtain ⟨y, hy, _⟩ := handleRepeatedSemicolons_fixes hrep _ rx
      cases hy
  · obtain ⟨hfx, _⟩ := handleSemicolonSameLine_cases hsl
    rw [hfx]
    constructor
    · intro x hx
      rcases csdw_mem _ hx with h1 | ⟨h1, _⟩ | h1 | ⟨y, hy, h1⟩
      · cases h1
      · cases h1
      · have hxy : x = targetSegment := by injection h1
        subst hxy
        exact isComment_eq_false_of_isType_terminator hterm
      · have hxy : x = y := by injection h1
        subst hxy
        exact isComment_eq_false_of_isWhitespace (whitespaceDeletions_isWhitespace hy)
    · intro x e hx
      rcases csdw_mem _ hx with h1 | ⟨h1, hmem⟩ | h1 | ⟨y, hy, h1⟩
      · cases h1
      · injection h1 with hx1 hx2
        rw [hx1]
        exact isComment_eq_false_of_isWhitespace (whitespaceDeletions_isWhitespace hmem)
      · cases h1
      · cases h1
  · rcases handleSemicolonNewline_cases hnl with ⟨hfx, _⟩ | ⟨hfx, _⟩
    · rw [hfx]
      constructor
      · intro x hx
        simp at hx
      · intro x e hx
        have h1 := List.mem_singleton.mp hx
        injection h1 with hx1 hx2
        rw [hx1]
        exact isComment_eq_false_of_isType_terminator hterm
    · rw [hfx]
      constructor
      · intro x hx
        rcases csdw_mem _ hx with h1 | ⟨h1, _⟩ | h1 | ⟨y, hy, h1⟩
        · cases h1
        · cases h1
        · have hxy : x = targetSegment := by injection h1
          subst hxy
          exact isComment_eq_false_of_isType_terminator hterm
        · have hxy : x = y := by injection h1
          subst hxy
          exact isComment_eq_false_of_isWhitespace (whitespaceDeletions_isWhitespace hy)
      · intro x e hx
        rcases csdw_mem _ hx with h1 | ⟨h1, hmem⟩ | h1 | ⟨y, hy, h1⟩
        · cases h1
        · injection h1 with hx1 hx2
          rw [hx1]
          exact isComment_eq_false_of_isWhitespace (whitespaceDeletions_isWhitespace hmem)
        · cases h1
        · cases h1

/-!
## Claim C6 -/

/-- C6: no fix emitted by an evaluation ever deletes or replaces a comment
segment; and for the `stmt -- noqa\n;` shape (collected preceding trivia
`[newline, comment, whitespace]`, nearest-first) the preceding-comment
adjustment makes the inline comment the new anchor and truncates the
trivia strictly before it. -/
theorem cv06_inline_comment_never_deleted_or_replaced :
    (∀ cfg rootSegment c r, isComment c = true → r ∈ evalCV06 cfg rootSegment →
      (LintFix.delete c ∉ r.fixes ∧ ∀ e, LintFix.replace c e ∉ r.fixes)) ∧
    (∀ nl c ws anchorSegment, isComment nl = false → isComment c = true →
      isType c "block_comment" = false → posLine c = lastRawLine anchorSegment →
      handlePrecedingInlineComments [nl, c, ws] anchorSegment = ([nl], c)) := by
  constructor
  · intro cfg root c r hc hr
    rcases evalCV06_results_mem hr with ⟨seg, hterm, hsem⟩ | hef | ⟨st, hm⟩
    · obtain ⟨hdel, hrep⟩ := handleSemicolon_fix_subjects hterm hsem
      constructor
      · intro hmem
        rw [hdel c hmem] at hc
        cases hc
      · intro e hmem
        rw [hrep c e hmem] at hc
        cases hc
    · obtain ⟨a, cs, hfx⟩ := ensureFinalSemicolon_fixes hef
      rw [hfx]
      constructor
      · intro hmem
        simp at hmem
      · intro e hmem
        simp at hmem
    · obtain ⟨a, cs, hfx⟩ := handleMissingSemicolon_fixes hm
      rw [hfx]
      constructor
      · intro hmem
        simp at hmem
      · intro e hmem
        simp at hmem
  · intro nl c ws anchor hnl hc hblock hline
    have hpredNl : (isComment nl && !(isType nl "block_comment")
        && (posLine nl == lastRawLine anchor)) = false := by
      rw [hnl]
      rfl
    have hpredC : (isComment c && !(isType c "block_comment")
        && (posLine c == lastRawLine anchor)) = true := by
      rw [hc, hblock, hline]
      simp
    have hne : nl ≠ c := by
      intro he
      rw [he, hc] at hnl
      cases hnl
    unfold handlePrecedingInlineComments
    have hfind : List.find? (fun s => isComment s && !(isType s "block_comment")
        && (posLine s == lastRawLine anchor)) [nl, c, ws] = some c := by
      rw [List.find?_cons_of_neg _ (by rw [hpredNl]; exact Bool.false_ne_true)]
      exact @List.find?_cons_of_pos Seg (fun s => isComment s && !(isType s "block_comment")
        && (posLine s == lastRawLine anchor)) c [ws] hpredC
    rw [hfind]
    show (List.takeWhile (fun s => decide (s ≠ c)) [nl, c, ws], c) = ([nl], c)
    rw [List.takeWhile_cons, if_pos (by simpa using hne), List.takeWhile_cons,
      if_neg (by simp)]

/-- C6 witness: on the concrete file `SELECT 1 -- noqa\n;` the single
emitted result never touches the comment, and the adjustment on the
concrete trivia list anchors on the comment. -/
theorem cv06_inline_comment_never_deleted_or_replaced_witness :
    (LintFix.delete exCm ∉ (LintResult.mk exWsA
        [LintFix.createAfter exWsA [CreateSeg.symbol ";" "statement_terminator"],
         LintFix.delete exT1, LintFix.delete exNl54] none).fixes ∧
      ∀ e, LintFix.replace exCm e ∉ (LintResult.mk exWsA
        [LintFix.createAfter exWsA [CreateSeg.symbol ";" "statement_terminator"],
         LintFix.delete exT1, LintFix.delete exNl54] none).fixes) ∧
    handlePrecedingInlineComments [exNl54, exCm, exWsA] exWsA = ([exNl54], exCm) :=
  ⟨cv06_inline_comment_never_deleted_or_replaced.1 ⟨false, false⟩ exFileF exCm
      (LintResult.mk exWsA
        [LintFix.createAfter exWsA [CreateSeg.symbol ";" "statement_terminator"],
         LintFix.delete exT1, LintFix.delete exNl54] none) (by decide) (by decide),
   cv06_inline_comment_never_deleted_or_replaced.2 exNl54 exCm exWsA exWsA
      (by decide) (by decide) (by decide) (by decide)⟩

/-!
## Claim C9 -/

/-- C9: with `require_final_semicolon` set, every statement left in the
pending queue after the scan — other than the file's last statement — gets
exactly one missing-terminator result in the evaluation output, whose
single fix inserts a terminator after the statement's last non-meta
segment as adjusted past trailing inline comments and resolved past meta
markers; the fix deletes and replaces nothing, so no statements are
merged. -/
theorem cv06_missing_terminator_sweep :
    ∀ cfg rootSegment st, cfg.requireFinalSemicolon = true →
      st ∈ (evalLoop cfg rootSegment (childrenOf rootSegment) [] []).2 →
      (match (childrenOf rootSegment).reverse.find? (fun s => isType s "statement") with
       | some ls => st ≠ ls
       | none => True) →
      ∀ lnm, (childrenOf st).reverse.find? (fun s => !isMeta s) = some lnm →
      ∃ r, handleMissingSemicolon cfg st rootSegment = some r ∧
        r ∈ evalCV06 cfg rootSegment ∧
        r.anchor = lnm ∧
        r.fixes = [LintFix.createAfter
          (chooseAnchorSegment rootSegment (handleTrailingInlineComments rootSegment lnm))
          (if newlineDecision cfg.multilineNewline (isOneLineStatement rootSegment st) = true
           then [CreateSeg.newline, CreateSeg.symbol ";" "statement_terminator"]
           else [CreateSeg.symbol ";" "statement_terminator"])] ∧
        (∀ f ∈ r.fixes, (∀ x, f ≠ LintFix.delete x) ∧ (∀ x e, f ≠ LintFix.replace x e)) := by
  intro cfg root st hreq hpend hlast lnm hlnm
  have hmiss : handleMissingSemicolon cfg st root =
      some ⟨lnm, [LintFix.createAfter
        (chooseAnchorSegment root (handleTrailingInlineComments root lnm))
        (if newlineDecision cfg.multilineNewline (isOneLineStatement root st) = true
         then [CreateSeg.newline, CreateSeg.symbol ";" "statement_terminator"]
         else [CreateSeg.symbol ";" "statement_terminator"])], none⟩ := by
    unfold handleMissingSemicolon
    simp only [hlnm]
  refine ⟨_, hmiss, ?_, rfl, rfl, ?_⟩
  · unfold evalCV06
    simp only [hreq, if_true, ite_true]
    apply List.mem_append_right
    apply List.mem_filterMap.mpr
    refine ⟨st, hpend, ?_⟩
    have hcond : (match (childrenOf root).reverse.find? (fun s => isType s "statement") with
        | some ls => decide (st ≠ ls)
        | none => true) = true := by
      cases hf : (childrenOf root).reverse.find? (fun s => isType s "statement") with
      | some ls =>
          rw [hf] at hlast
          simpa using hlast
      | none => rfl
    rw [if_pos hcond]
    exact hmiss
  · intro f hf
    have hfe := List.mem_singleton.mp hf
    subst hfe
    exact ⟨fun x => by simp, fun x e => by simp⟩

/-- C9 witness: on the concrete file `SELECT 1; SELECT 2 SELECT 3` (second
statement unterminated) with `require_final_semicolon = true`. -/
theorem cv06_missing_terminator_sweep_witness :
    ∃ r, handleMissingSemicolon ⟨false, true⟩ exStmt2 exFileH = some r ∧
      r ∈ evalCV06 ⟨false, true⟩ exFileH ∧
      r.anchor = exS31 ∧
      r.fixes = [LintFix.createAfter
        (chooseAnchorSegment exFileH (handleTrailingInlineComments exFileH exS31))
        (if newlineDecision (Config.mk false true).multilineNewline
            (isOneLineStatement exFileH exStmt2) = true
         then [CreateSeg.newline, CreateSeg.symbol ";" "statement_terminator"]
         else [CreateSeg.symbol ";" "statement_terminator"])] ∧
      (∀ f ∈ r.fixes, (∀ x, f ≠ LintFix.delete x) ∧ (∀ x e, f ≠ LintFix.replace x e)) :=
  cv06_missing_terminator_sweep ⟨false, true⟩ exFileH exStmt2 rfl (by decide)
    (by decide : exStmt2 ≠ exStmt3) exS31 (by decide)

/-!
## Claim C10 -/

/-- Trivia segments (neither statements nor terminators) leave the
pending-termination queue untouched. -/
theorem foldl_pendingStep_id_of_trivia :
    ∀ (l : List Seg),
      (∀ x ∈ l, isType x "statement" = false ∧ isType x "statement_terminator" = false) →
      ∀ P, l.foldl (fun p s => pendingStep s p) P = P := by
  intro l
  induction l with
  | nil =>
      intro _ P
      rfl
  | cons x l ih =>
      intro hall P
      have hx := hall x (List.mem_cons_self _ _)
      have hstep : pendingStep x P = P := by
        simp [pendingStep, hx.1, hx.2]
      rw [List.foldl_cons, hstep]
      exact ih (fun y hy => hall y (List.mem_cons_of_mem _ hy)) P

/-- Provenance of evaluation results, remembering that sweep results come
from statements still in the pending queue. -/
theorem evalCV06_results_mem_pending {cfg : Config} {rootSegment : Seg} {r : LintResult}
    (h : r ∈ evalCV06 cfg rootSegment) :
    (∃ seg, isType seg "statement_terminator" = true ∧
      handleSemicolon cfg seg rootSegment = some r) ∨
    ensureFinalSemicolon cfg rootSegment = some r ∨
    (∃ st, st ∈ (evalLoop cfg rootSegment (childrenOf rootSegment) [] []).2 ∧
      handleMissingSemicolon cfg st rootSegment = some r) := by
  unfold evalCV06 at h
  by_cases hreq : cfg.requireFinalSemicolon = true
  · simp only [hreq, if_true, ite_true] at h
    rcases List.mem_append.mp h with h1 | h1
    · rcases evalLoop_results_mem cfg rootSegment _ _ _ r h1 with h2 | h2 | h2
      · cases h2
      · exact Or.inl h2
      · exact Or.inr (Or.inl h2)
    · rcases List.mem_filterMap.mp h1 with ⟨st, hst, hsome⟩
      split at hsome
      · exact Or.inr (Or.inr ⟨st, hst, hsome⟩)
      · cases hsome
  · have hreq' : cfg.requireFinalSemicolon = false := by
      cases hh : cfg.requireFinalSemicolon
      · rfl
      · exact absurd hh hreq
    simp only [hreq', Bool.false_eq_true, if_false, ite_false] at h
    rcases evalLoop_results_mem cfg rootSegment _ _ _ r h with h2 | h2 | h2
    · cases h2
    · exact Or.inl h2
    · exact Or.inr (Or.inl h2)

/-- C10: a top-level `statement_terminator` whose text is not `;` (such as
Oracle's `/`), wherever it sits in the file and even separated from its
statement by trivia, produces no result from the per-terminator handler,
yet the driver still pops the most recently pushed pending statement for
it: the statement/terminator span contributes nothing to the queue, the
statement is absent from the queue the missing-terminator sweep iterates
over, and consequently — even with `require_final_semicolon = true` —
every emitted result has a provenance other than a missing-terminator
report for that statement. -/
theorem cv06_non_semicolon_terminator_pops_without_result :
    ∀ cfg rootSegment pre mid post st t,
      childrenOf rootSegment = pre ++ st :: (mid ++ t :: post) →
      isType st "statement" = true →
      isType t "statement_terminator" = true →
      rawText t ≠ ";" →
      (∀ x ∈ mid, isType x "statement" = false ∧ isType x "statement_terminator" = false) →
      st ∉ pre → st ∉ post →
      handleSemicolon cfg t rootSegment = none ∧
      (childrenOf rootSegment).foldl (fun p s => pendingStep s p) [] =
        post.foldl (fun p s => pendingStep s p)
          (pre.foldl (fun p s => pendingStep s p) []) ∧
      st ∉ (evalLoop cfg rootSegment (childrenOf rootSegment) [] []).2 ∧
      (∀ r ∈ evalCV06 cfg rootSegment,
        (∃ seg, isType seg "statement_terminator" = true ∧
          handleSemicolon cfg seg rootSegment = some r) ∨
        ensureFinalSemicolon cfg rootSegment = some r ∨
        (∃ st2, st2 ≠ st ∧ handleMissingSemicolon cfg st2 rootSegment = some r)) := by
  intro cfg root pre mid post st t hch hst hterm hraw hmid hpre hpost
  have hkst : kindOf st = "statement" := kindOf_eq_of_isType (by decide) hst
  have hkt : kindOf t = "statement_terminator" := kindOf_eq_of_isType (by decide) hterm
  have hstep_st : ∀ P, pendingStep st P = P ++ [st] := by
    intro P
    have h1 : isType st "statement_terminator" = false :=
      isType_eq_false_of_kind hkst (by decide) (by decide)
    simp [pendingStep, hst, h1]
  have hstep_t : ∀ P, pendingStep t (P ++ [st]) = P := by
    intro P
    have h1 : isType t "statement" = false :=
      isType_eq_false_of_kind hkt (by decide) (by decide)
    have h2 : (P ++ [st]).isEmpty = false := by
      simp [List.isEmpty_iff]
    simp [pendingStep, h1, hterm, h2, List.dropLast_concat]
  have hfold : (childrenOf root).foldl (fun p s => pendingStep s p) [] =
      post.foldl (fun p s => pendingStep s p)
        (pre.foldl (fun p s => pendingStep s p) []) := by
    rw [hch, List.foldl_append, List.foldl_cons, hstep_st, List.foldl_append,
      foldl_pendingStep_id_of_trivia mid hmid, List.foldl_cons, hstep_t]
  have hnotpend : st ∉ (evalLoop cfg root (childrenOf root) [] []).2 := by
    rw [evalLoop_snd_eq_foldl, hfold]
    intro hmem
    rcases mem_foldl_pendingStep post _ hmem with h1 | h1
    · rcases mem_foldl_pendingStep pre [] h1 with h2 | h2
      · cases h2
      · exact hpre h2
    · exact hpost h1
  refine ⟨?_, hfold, hnotpend, ?_⟩
  · simp only [handleSemicolon, if_pos hraw]
  · intro r hr
    rcases evalCV06_results_mem_pending hr with h1 | h1 | ⟨st2, hst2mem, hst2⟩
    · exact Or.inl h1
    · exact Or.inr (Or.inl h1)
    · refine Or.inr (Or.inr ⟨st2, ?_, hst2⟩)
      intro he
      exact hnotpend (he ▸ hst2mem)

/-- Top level of `SELECT 1/ SELECT 2;`: statement, mid-file slash
terminator, statement, `;` — the first statement is not the file's last
statement, yet the evaluation reports nothing for it. -/
def exFileK : Seg := .node 12 "file" (segsOf [exStmt1, exSlash, exStmt2, exT1])

/-- C10 witness: the mid-file slash terminator of `exFileK` yields no
handler result, cancels the push of the first statement, and with
`require_final_semicolon = true` the whole evaluation is empty — the
unterminated first statement is silently dropped. -/
theorem cv06_non_semicolon_terminator_pops_without_result_witness :
    (handleSemicolon ⟨false, true⟩ exSlash exFileK = none ∧
      (childrenOf exFileK).foldl (fun p s => pendingStep s p) [] =
        [exStmt2, exT1].foldl (fun p s => pendingStep s p)
          (([] : List Seg).foldl (fun p s => pendingStep s p) []) ∧
      exStmt1 ∉ (evalLoop ⟨false, true⟩ exFileK (childrenOf exFileK) [] []).2 ∧
      (∀ r ∈ evalCV06 ⟨false, true⟩ exFileK,
        (∃ seg, isType seg "statement_terminator" = true ∧
          handleSemicolon ⟨false, true⟩ seg exFileK = some r) ∨
        ensureFinalSemicolon ⟨false, true⟩ exFileK = some r ∨
        (∃ st2, st2 ≠ exStmt1 ∧
          handleMissingSemicolon ⟨false, true⟩ st2 exFileK = some r))) ∧
    evalCV06 ⟨false, true⟩ exFileK = [] :=
  ⟨cv06_non_semicolon_terminator_pops_without_result ⟨false, true⟩ exFileK
      [] [] [exStmt2, exT1] exStmt1 exSlash (by decide) (by decide) (by decide)
      (by decide) (by decide) (by decide) (by decide),
   by decide⟩
